import Mathlib

/-!
# Verification of the `indexed-heapq` indexed priority queue

A shallow embedding of `IndexedHeapQueue` (file `indexed_heapq/indexed_heapq.py`,
with the mapping-protocol variant in `src/indexed_heapq/indexed_heapq.py`):
a binary min-heap stored in a dense sequence of `(key, priority)` entries
together with a position index mapping each key to its current heap slot.

The heap sequence is a `List (Entry K P)`; the Python `dict` position index is
an insertion-ordered association list `List (K × Nat)` (`dset` updates an
existing key in place and appends a fresh key, `ddel` removes an entry —
exactly the observable behaviour of a Python dict).  The `while` loops of
`_sift_up` / `_sink_down` are embedded as fuel-based recursions; the fuel
(`index` for sift-up, `length` for sink-down) is an upper bound on the number
of loop iterations, so the embedded function never exhausts it on the loops'
reachable arguments.
-/

namespace IndexedHeapQ

structure Entry (K P : Type) where
  key : K
  priority : P
deriving DecidableEq, Repr

instance {K P : Type} [Inhabited K] [Inhabited P] : Inhabited (Entry K P) :=
  ⟨⟨default, default⟩⟩

/-- The position index: a Python `dict` from key to heap slot, modelled as an
insertion-ordered association list. -/
abbrev Dict (K : Type) := List (K × Nat)

variable {K P : Type} [DecidableEq K] [LinearOrder P] [Inhabited K] [Inhabited P]

/-- Python `d[k]` for the position index (`None` when absent). -/
def dget (d : Dict K) (k : K) : Option Nat :=
  match d with
  | [] => none
  | kv :: rest => if kv.1 = k then some kv.2 else dget rest k

/-- Python `k in d`. -/
def dmem (d : Dict K) (k : K) : Bool :=
  (dget d k).isSome

/-- Python `d[k] = v`: update in place when present (preserving insertion
order), append when absent. -/
def dset (d : Dict K) (k : K) (v : Nat) : Dict K :=
  match d with
  | [] => [(k, v)]
  | kv :: rest => if kv.1 = k then (k, v) :: rest else kv :: dset rest k v

/-- Python `del d[k]`. -/
def ddel (d : Dict K) (k : K) : Dict K :=
  match d with
  | [] => []
  | kv :: rest => if kv.1 = k then rest else kv :: ddel rest k

/-- Entry stored at heap slot `i` (`self.pq[i]`). -/
def ent (pq : List (Entry K P)) (i : Nat) : Entry K P :=
  pq.getD i default

/-- Priority stored at heap slot `i` (`self.pq[i].priority`; the `Comparator`
wrapper compares entries by priority alone). -/
def pri (pq : List (Entry K P)) (i : Nat) : P :=
  (ent pq i).priority

/-- The index `smallest` computed by one iteration of `_sink_down`: start from
`index`, take the left child if strictly smaller, then the right child if
strictly smaller than the current candidate. -/
def smallestChild (pq : List (Entry K P)) (i : Nat) : Nat :=
  let s1 := if 2 * i + 1 < pq.length ∧ pri pq (2 * i + 1) < pri pq i then 2 * i + 1 else i
  if 2 * i + 2 < pq.length ∧ pri pq (2 * i + 2) < pri pq s1 then 2 * i + 2 else s1

/-- The `while` loop of `_sink_down`, by fuel; each iteration swaps slots
`i` and `smallestChild pq i` and updates both swapped keys' index-map slots. -/
def sinkDownGo : Nat → List (Entry K P) → Dict K → Nat → List (Entry K P) × Dict K
  | 0, pq, d, _ => (pq, d)
  | fuel + 1, pq, d, i =>
    let s := smallestChild pq i
    if s = i then (pq, d)
    else
      let a := ent pq i
      let b := ent pq s
      sinkDownGo fuel ((pq.set i b).set s a) (dset (dset d b.key i) a.key s) s

/-- `IndexedHeapQueue._sink_down` (the loop index strictly increases and stays
below `pq.length`, so `pq.length` iterations of fuel are never exhausted). -/
def sinkDown (pq : List (Entry K P)) (d : Dict K) (i : Nat) : List (Entry K P) × Dict K :=
  sinkDownGo pq.length pq d i

/-- The `while` loop of `_sift_up`, by fuel; each iteration swaps slot `i`
with its parent `(i-1)/2` when strictly smaller, updating both swapped keys'
index-map slots. -/
def siftUpGo : Nat → List (Entry K P) → Dict K → Nat → List (Entry K P) × Dict K
  | 0, pq, d, _ => (pq, d)
  | fuel + 1, pq, d, i =>
    if 0 < i then
      let par := (i - 1) / 2
      if pri pq i < pri pq par then
        let a := ent pq i
        let b := ent pq par
        siftUpGo fuel ((pq.set i b).set par a) (dset (dset d b.key i) a.key par) par
      else (pq, d)
    else (pq, d)

/-- `IndexedHeapQueue._sift_up` (the loop index strictly decreases, so `i`
iterations of fuel are never exhausted). -/
def siftUp (pq : List (Entry K P)) (d : Dict K) (i : Nat) : List (Entry K P) × Dict K :=
  siftUpGo i pq d i

/-- Pure-list effect of `_sink_down` (the heap array alone, no index map). -/
def sinkDownListGo : Nat → List (Entry K P) → Nat → List (Entry K P)
  | 0, pq, _ => pq
  | fuel + 1, pq, i =>
    let s := smallestChild pq i
    if s = i then pq
    else sinkDownListGo fuel ((pq.set i (ent pq s)).set s (ent pq i)) s

def sinkDownList (pq : List (Entry K P)) (i : Nat) : List (Entry K P) :=
  sinkDownListGo pq.length pq i

/-- Pure-list effect of `_sift_up`. -/
def siftUpListGo : Nat → List (Entry K P) → Nat → List (Entry K P)
  | 0, pq, _ => pq
  | fuel + 1, pq, i =>
    if 0 < i then
      let par := (i - 1) / 2
      if pri pq i < pri pq par then
        siftUpListGo fuel ((pq.set i (ent pq par)).set par (ent pq i)) par
      else pq
    else pq

def siftUpList (pq : List (Entry K P)) (i : Nat) : List (Entry K P) :=
  siftUpListGo i pq i

/-- State of an `IndexedHeapQueue`: the heap sequence `self.pq` and the
position index `self.pq_index`. -/
structure IHQ (K P : Type) where
  pq : List (Entry K P)
  pq_index : Dict K
deriving DecidableEq, Repr

/-- The error taxonomy of the public operations (`IndexError`/`KeyError` on an
empty queue, `KeyError` on an absent key, `ValueError`/duplicate on insert). -/
inductive Err where
  | emptyQueue
  | keyNotFound
  | duplicateKey
deriving DecidableEq, Repr

def IHQ.empty : IHQ K P := ⟨[], []⟩

/-- `__len__` (the heap variant returns `len(self.pq)`; the mapping-protocol
variant returns `len(self.pq_index)` — equal in every consistent state). -/
def size (q : IHQ K P) : Nat :=
  q.pq.length

/-- `__contains__`. -/
def contains (q : IHQ K P) (k : K) : Bool :=
  dmem q.pq_index k

/-- `peek`. -/
def peek (q : IHQ K P) : Except Err (K × P) :=
  if q.pq.isEmpty then .error .emptyQueue
  else .ok ((ent q.pq 0).key, (ent q.pq 0).priority)

/-- `get` (`__getitem__` in the mapping-protocol variant). -/
def get (q : IHQ K P) (k : K) : Except Err P :=
  match dget q.pq_index k with
  | none => .error .keyNotFound
  | some i => .ok (pri q.pq i)

/-- Body of `insert` after its duplicate-key guard: append the entry, record
its index, sift up from the last slot. -/
def insertCore (q : IHQ K P) (k : K) (p : P) : IHQ K P :=
  let pq1 := q.pq ++ [⟨k, p⟩]
  let d1 := dset q.pq_index k (pq1.length - 1)
  let r := siftUp pq1 d1 (pq1.length - 1)
  ⟨r.1, r.2⟩

/-- `insert`. -/
def insert (q : IHQ K P) (k : K) (p : P) : Except Err (IHQ K P) :=
  if dmem q.pq_index k then .error .duplicateKey
  else .ok (insertCore q k p)

/-- Body of `update` after the key was found at slot `i`: write the new
priority in place, then sift up when strictly smaller than the old priority,
otherwise sink down. -/
def updateCore (q : IHQ K P) (i : Nat) (p : P) : IHQ K P :=
  let item := ent q.pq i
  let pq1 := q.pq.set i ⟨item.key, p⟩
  if p < item.priority then
    let r := siftUp pq1 q.pq_index i
    ⟨r.1, r.2⟩
  else
    let r := sinkDown pq1 q.pq_index i
    ⟨r.1, r.2⟩

/-- `update`. -/
def update (q : IHQ K P) (k : K) (p : P) : Except Err (IHQ K P) :=
  match dget q.pq_index k with
  | none => .error .keyNotFound
  | some i => .ok (updateCore q i p)

/-- `upsert` (`__setitem__` in the mapping-protocol variant): `update` when
the key is present, `insert` when absent; never fails. -/
def upsert (q : IHQ K P) (k : K) (p : P) : IHQ K P :=
  match dget q.pq_index k with
  | some i => updateCore q i p
  | none => insertCore q k p

/-- Body of `remove` after the key was found at slot `i`: pop the last entry;
when `i` is not the last slot move it into slot `i`, reindex it, and run both
sift-up and sink-down from `i`; finally erase the key from the index map. -/
def removeCore (q : IHQ K P) (k : K) (i : Nat) : IHQ K P :=
  let last := ent q.pq (q.pq.length - 1)
  let pq1 := q.pq.dropLast
  if i < pq1.length then
    let pq2 := pq1.set i last
    let d1 := dset q.pq_index last.key i
    let r1 := siftUp pq2 d1 i
    let r2 := sinkDown r1.1 r1.2 i
    ⟨r2.1, ddel r2.2 k⟩
  else
    ⟨pq1, ddel q.pq_index k⟩

/-- `remove` (`__delitem__` in the mapping-protocol variant). -/
def remove (q : IHQ K P) (k : K) : Except Err (IHQ K P) :=
  match dget q.pq_index k with
  | none => .error .keyNotFound
  | some i => .ok (removeCore q k i)

/-- `pop`: save the root, pop the last entry, move it into slot 0 when
entries remain, sink down from 0, erase the popped key from the index map. -/
def pop (q : IHQ K P) : Except Err ((K × P) × IHQ K P) :=
  if q.pq.isEmpty then .error .emptyQueue
  else
    let m := ent q.pq 0
    let last := ent q.pq (q.pq.length - 1)
    let pq1 := q.pq.dropLast
    if pq1.isEmpty then
      .ok ((m.key, m.priority), ⟨pq1, ddel q.pq_index m.key⟩)
    else
      let pq2 := pq1.set 0 last
      let d1 := dset q.pq_index last.key 0
      let r := sinkDown pq2 d1 0
      .ok ((m.key, m.priority), ⟨r.1, ddel r.2 m.key⟩)

/-- Modelled from the spec: `heapq.heapify` is Python-stdlib code not in this
repository; the spec's bulk load says "heapify the sequence in place
(bottom-up sink-down, O(n))", so heapify is embedded as sink-down applied at
slots `n/2 - 1, ..., 0` in that order. -/
def heapifyFromList : List (Entry K P) → Nat → List (Entry K P)
  | pq, 0 => pq
  | pq, n + 1 => heapifyFromList (sinkDownList pq n) n

def heapifyList (pq : List (Entry K P)) : List (Entry K P) :=
  heapifyFromList pq (pq.length / 2)

/-- The reindexing pass of bulk construction:
`for i, item in enumerate(self.pq): self.pq_index[item.key] = i`. -/
def reindexGo (d : Dict K) : List (Entry K P) → Nat → Dict K
  | [], _ => d
  | e :: rest, i => reindexGo (dset d e.key i) rest (i + 1)

def reindex (d : Dict K) (pq : List (Entry K P)) : Dict K :=
  reindexGo d pq 0

/-- `__init__` from a mapping (the mapping-protocol variant): append all
`(key, priority)` pairs in the mapping's key iteration order, placing each key
in the index map with a placeholder slot to fix the dict's insertion order
(the source writes `-1`, unrepresentable as a `Nat` slot; the placeholder is
overwritten for every key by the reindexing pass, so its value is never
observable), heapify, then record every entry's final heap position. -/
def ofMapping (m : List (K × P)) : IHQ K P :=
  let pq0 := m.map (fun kp => Entry.mk kp.1 kp.2)
  let d0 : Dict K := m.map (fun kp => (kp.1, 0))
  let pq1 := heapifyList pq0
  ⟨pq1, reindex d0 pq1⟩

/-- The binary min-heap property of the sequence, in parent form: every
non-root slot's priority is at least its parent's. -/
def heapProp (pq : List (Entry K P)) : Prop :=
  ∀ j, j < pq.length → 0 < j → pri pq ((j - 1) / 2) ≤ pri pq j

instance (pq : List (Entry K P)) : Decidable (heapProp pq) := by
  unfold heapProp; infer_instance

/-- Consistency of the two internal structures: keys of the sequence are
pairwise distinct, keys of the index map are pairwise distinct, the two have
equal cardinality, and every sequence slot's key is mapped to that slot. -/
def DInv (pq : List (Entry K P)) (d : Dict K) : Prop :=
  (pq.map Entry.key).Nodup ∧
  (d.map Prod.fst).Nodup ∧
  d.length = pq.length ∧
  ∀ i, i < pq.length → dget d (ent pq i).key = some i

instance (pq : List (Entry K P)) (d : Dict K) : Decidable (DInv pq d) := by
  unfold DInv; infer_instance

/-- The position-index consistency invariant of a queue state. -/
def InvP (q : IHQ K P) : Prop :=
  DInv q.pq q.pq_index

instance (q : IHQ K P) : Decidable (InvP q) := by
  unfold InvP; infer_instance

/-- The `(key, priority)` pairs currently stored, in heap order. -/
def pairs (q : IHQ K P) : List (K × P) :=
  q.pq.map (fun e => (e.key, e.priority))

/-! ### Access lemmas for the heap sequence -/

set_option linter.unusedSectionVars false

/-! ### Heap-restoration correctness of the sift/sink loops -/

/-- The heap property restricted to edges whose parent slot is at least `m`
(the subrange processed so far during bottom-up heapify; `heapFrom 0` is the
full heap property). -/
def heapFrom (m : Nat) (pq : List (Entry K P)) : Prop :=
  ∀ j, j < pq.length → 0 < j → m ≤ (j - 1) / 2 → pri pq ((j - 1) / 2) ≤ pri pq j

/-- The synchronization part of the invariant alone: sequence keys distinct,
index-map keys distinct, every sequence slot's key mapped to that slot.  The
index map may temporarily hold additional stale keys (as it does between the
sequence surgery and the final `del self.pq_index[...]` of `pop`/`remove`). -/
def DSync (pq : List (Entry K P)) (d : Dict K) : Prop :=
  (pq.map Entry.key).Nodup ∧
  (d.map Prod.fst).Nodup ∧
  ∀ i, i < pq.length → dget d (ent pq i).key = some i

/-- Draining loop: pop until empty (at most `fuel` times). -/
def popAllGo : Nat → IHQ K P → List (K × P)
  | 0, _ => []
  | fuel + 1, q =>
    match pop q with
    | .error _ => []
    | .ok (kp, q') => kp :: popAllGo fuel q'

def popAll (q : IHQ K P) : List (K × P) :=
  popAllGo q.pq.length q

/-! ### Building a queue by repeated insertion -/

/-- One step of the round-trip scenario: `insert`, keeping the old state on
failure (which does not occur for pairwise-distinct keys). -/
def applyInsert (q : IHQ K P) (kp : K × P) : IHQ K P :=
  match insert q kp.1 kp.2 with
  | .ok q' => q'
  | .error _ => q

def insertAll (l : List (K × P)) : IHQ K P :=
  l.foldl applyInsert IHQ.empty

/-! ### States reachable by the public interface -/

/-- Queue states produced by the public constructors and mutators. -/
inductive Reachable : IHQ K P → Prop where
  | empty : Reachable IHQ.empty
  | ofMap (m : List (K × P)) (hnd : (m.map Prod.fst).Nodup) :
      Reachable (ofMapping m)
  | insertStep {q q' : IHQ K P} {k : K} {p : P} :
      Reachable q → insert q k p = .ok q' → Reachable q'
  | updateStep {q q' : IHQ K P} {k : K} {p : P} :
      Reachable q → update q k p = .ok q' → Reachable q'
  | upsertStep {q : IHQ K P} (k : K) (p : P) :
      Reachable q → Reachable (upsert q k p)
  | removeStep {q q' : IHQ K P} {k : K} :
      Reachable q → remove q k = .ok q' → Reachable q'
  | popStep {q q' : IHQ K P} {kp : K × P} :
      Reachable q → pop q = .ok (kp, q') → Reachable q'

/-- The heap property in the child form used by the specification. -/
def heapPropC (pq : List (Entry K P)) : Prop :=
  ∀ i, (2 * i + 1 < pq.length → pri pq i ≤ pri pq (2 * i + 1)) ∧
    (2 * i + 2 < pq.length → pri pq i ≤ pri pq (2 * i + 2))

instance (pq : List (Entry K P)) : Decidable (heapPropC pq) := by
  have hiff : heapPropC pq ↔ ∀ i, i < pq.length →
      (2 * i + 1 < pq.length → pri pq i ≤ pri pq (2 * i + 1)) ∧
      (2 * i + 2 < pq.length → pri pq i ≤ pri pq (2 * i + 2)) := by
    constructor
    · intro h i _
      exact h i
    · intro h i
      constructor
      · intro hl
        exact (h i (by omega)).1 hl
      · intro hr
        exact (h i (by omega)).2 hr
  exact decidable_of_iff _ hiff.symm

/-! ### The naive reference implementation and the model-based property -/

/-- Modelled from the spec: the reference of the fuzz property is "a naive
O(n)-scan reference implementation" (`tests/naive.py`, whose heap bookkeeping
delegates to Python-stdlib `heapq`, code not in this repository): entries are
kept as a flat insertion-ordered list of `(key, priority)` pairs and every
operation is a linear scan. -/
structure NaiveRef (K P : Type) where
  entries : List (K × P)
deriving DecidableEq, Repr

def NaiveRef.empty : NaiveRef K P := ⟨[]⟩

/-- Index of the first entry holding key `k`, by linear scan. -/
def scanIdx : List (K × P) → K → Option Nat
  | [], _ => none
  | kp :: rest, k => if kp.1 = k then some 0 else (scanIdx rest k).map (· + 1)

/-- First index of minimal priority and that priority, by linear scan
(the earlier entry wins ties). -/
def minScan : List (K × P) → Option (Nat × P)
  | [] => none
  | kp :: rest =>
    match minScan rest with
    | none => some (0, kp.2)
    | some (j, p) => if p < kp.2 then some (j + 1, p) else some (0, kp.2)

def ncontains (n : NaiveRef K P) (k : K) : Bool :=
  (scanIdx n.entries k).isSome

def nget (n : NaiveRef K P) (k : K) : Except Err P :=
  match scanIdx n.entries k with
  | none => .error .keyNotFound
  | some j => .ok (n.entries.getD j default).2

def ninsert (n : NaiveRef K P) (k : K) (p : P) : Except Err (NaiveRef K P) :=
  if ncontains n k then .error .duplicateKey
  else .ok ⟨n.entries ++ [(k, p)]⟩

def nupdate (n : NaiveRef K P) (k : K) (p : P) : Except Err (NaiveRef K P) :=
  match scanIdx n.entries k with
  | none => .error .keyNotFound
  | some j => .ok ⟨n.entries.set j (k, p)⟩

def nremove (n : NaiveRef K P) (k : K) : Except Err (NaiveRef K P) :=
  match scanIdx n.entries k with
  | none => .error .keyNotFound
  | some j => .ok ⟨n.entries.eraseIdx j⟩

def npeek (n : NaiveRef K P) : Except Err (K × P) :=
  match minScan n.entries with
  | none => .error .emptyQueue
  | some (j, _) => .ok (n.entries.getD j default)

def npop (n : NaiveRef K P) : Except Err ((K × P) × NaiveRef K P) :=
  match minScan n.entries with
  | none => .error .emptyQueue
  | some (j, _) => .ok (n.entries.getD j default, ⟨n.entries.eraseIdx j⟩)

/-- The operations of the model-based property. -/
inductive Op (K P : Type) where
  | ins (k : K) (p : P)
  | upd (k : K) (p : P)
  | rem (k : K)
  | popOp
deriving DecidableEq, Repr

/-- Apply one operation identically to both structures (a failing call leaves
that structure unchanged). -/
def stepSame (s : IHQ K P × NaiveRef K P) (op : Op K P) :
    IHQ K P × NaiveRef K P :=
  match op with
  | .ins k p =>
    ((match insert s.1 k p with | .ok q' => q' | .error _ => s.1),
     (match ninsert s.2 k p with | .ok n' => n' | .error _ => s.2))
  | .upd k p =>
    ((match update s.1 k p with | .ok q' => q' | .error _ => s.1),
     (match nupdate s.2 k p with | .ok n' => n' | .error _ => s.2))
  | .rem k =>
    ((match remove s.1 k with | .ok q' => q' | .error _ => s.1),
     (match nremove s.2 k with | .ok n' => n' | .error _ => s.2))
  | .popOp =>
    ((match pop s.1 with | .ok r => r.2 | .error _ => s.1),
     (match npop s.2 with | .ok r => r.2 | .error _ => s.2))

/-- Apply one operation to both structures, with `pop` mirrored on the
reference by removing the key the queue popped — exactly how the repository's
stateful hypothesis test drives the pair. -/
def stepMirrored (s : IHQ K P × NaiveRef K P) (op : Op K P) :
    IHQ K P × NaiveRef K P :=
  match op with
  | .popOp =>
    match pop s.1 with
    | .error _ => s
    | .ok (kp, q') =>
      (q', (match nremove s.2 kp.1 with | .ok n' => n' | .error _ => s.2))
  | op => stepSame s op

def runSame (ops : List (Op K P)) : IHQ K P × NaiveRef K P :=
  ops.foldl stepSame (IHQ.empty, NaiveRef.empty)

def runMirrored (ops : List (Op K P)) : IHQ K P × NaiveRef K P :=
  ops.foldl stepMirrored (IHQ.empty, NaiveRef.empty)

/-- The coupling invariant: the queue is well formed, the reference's keys
are distinct, and both hold the same multiset of `(key, priority)` pairs. -/
def Rel (q : IHQ K P) (n : NaiveRef K P) : Prop :=
  InvP q ∧ heapProp q.pq ∧ (n.entries.map Prod.fst).Nodup ∧
    List.Perm (pairs q) n.entries

/-! ### Theorems -/

theorem ent_eq_getElem {pq : List (Entry K P)} {i : Nat} (h : i < pq.length) :
    ent pq i = pq[i] :=
  List.getD_eq_getElem pq default h

theorem ent_eq_default {pq : List (Entry K P)} {i : Nat} (h : pq.length ≤ i) :
    ent pq i = default :=
  List.getD_eq_default pq default h

theorem ent_set_self {pq : List (Entry K P)} {i : Nat} (e : Entry K P)
    (h : i < pq.length) : ent (pq.set i e) i = e := by
  rw [ent_eq_getElem (by simpa using h)]
  exact List.getElem_set_self (by simpa using h)

theorem ent_set_ne {pq : List (Entry K P)} {i j : Nat} (e : Entry K P)
    (h : i ≠ j) : ent (pq.set i e) j = ent pq j := by
  unfold ent
  rw [List.getD_eq_getElem?_getD, List.getD_eq_getElem?_getD,
    List.getElem?_set_ne h]

theorem pri_set_ne {pq : List (Entry K P)} {i j : Nat} (e : Entry K P)
    (h : i ≠ j) : pri (pq.set i e) j = pri pq j := by
  unfold pri; rw [ent_set_ne e h]

theorem ent_append_lt {pq l : List (Entry K P)} {i : Nat} (h : i < pq.length) :
    ent (pq ++ l) i = ent pq i := by
  unfold ent
  rw [List.getD_eq_getElem?_getD, List.getD_eq_getElem?_getD,
    List.getElem?_append_left h]

theorem ent_concat_length {pq : List (Entry K P)} (e : Entry K P) :
    ent (pq ++ [e]) pq.length = e := by
  unfold ent
  rw [List.getD_eq_getElem?_getD, List.getElem?_concat_length]
  rfl

theorem ent_dropLast {pq : List (Entry K P)} {i : Nat} (h : i < pq.length - 1) :
    ent pq.dropLast i = ent pq i := by
  unfold ent
  rw [List.getD_eq_getElem?_getD, List.getD_eq_getElem?_getD,
    List.getElem?_eq_getElem (by simpa using h),
    List.getElem?_eq_getElem (by omega : i < pq.length)]
  simp [List.getElem_dropLast]

theorem ent_getLast {pq : List (Entry K P)} (h : pq ≠ []) :
    ent pq (pq.length - 1) = pq.getLast h := by
  have hl : 0 < pq.length := List.length_pos.mpr h
  rw [ent_eq_getElem (by omega), List.getLast_eq_getElem]

/-- An additive form of counting after `List.set`. -/
theorem count_set_add {pq : List (Entry K P)} {i : Nat} (e x : Entry K P)
    (h : i < pq.length) :
    (pq.set i e).count x + (if pq[i] = x then 1 else 0)
      = pq.count x + (if e = x then 1 else 0) := by
  induction pq generalizing i with
  | nil => simp at h
  | cons hd tl ih =>
    cases i with
    | zero => simp [List.count_cons]; omega
    | succ n =>
      have := ih (i := n) (by simpa using h)
      simp only [List.set_cons_succ, List.count_cons, List.getElem_cons_succ]
      omega

/-- Swapping two distinct in-range slots permutes the sequence. -/
theorem perm_set_swap {pq : List (Entry K P)} {i j : Nat}
    (hi : i < pq.length) (hj : j < pq.length) (hij : i ≠ j) :
    List.Perm ((pq.set i (ent pq j)).set j (ent pq i)) pq := by
  rw [List.perm_iff_count]
  intro x
  have hj' : j < (pq.set i (ent pq j)).length := by simpa using hj
  have h1 := count_set_add (ent pq i) x hj'
  have h2 := count_set_add (ent pq j) x hi
  have hgj : (pq.set i (ent pq j))[j] = pq[j] := by
    rw [List.getElem_set_ne hij]
  rw [hgj] at h1
  rw [ent_eq_getElem hi, ent_eq_getElem hj] at *
  by_cases e1 : pq[i] = x <;> by_cases e2 : pq[j] = x <;>
    simp [e1, e2] at h1 h2 ⊢ <;> omega

/-! ### Position-index (dict) lemmas -/

theorem dget_dset_self (d : Dict K) (k : K) (v : Nat) :
    dget (dset d k v) k = some v := by
  induction d with
  | nil => simp [dget, dset]
  | cons kv rest ih =>
    by_cases h : kv.1 = k <;> simp [dget, dset, h, ih]

theorem dget_dset_ne (d : Dict K) {k k' : K} (v : Nat) (h : k' ≠ k) :
    dget (dset d k v) k' = dget d k' := by
  have hkk : ¬ k = k' := fun he => h he.symm
  induction d with
  | nil => simp only [dset, dget, if_neg hkk]
  | cons kv rest ih =>
    by_cases h1 : kv.1 = k
    · have h2 : ¬ kv.1 = k' := by rw [h1]; exact hkk
      simp only [dset, if_pos h1, dget, if_neg hkk, if_neg h2]
    · simp only [dset, if_neg h1, dget, ih]

theorem dget_isSome_iff (d : Dict K) (k : K) :
    (dget d k).isSome = true ↔ k ∈ d.map Prod.fst := by
  induction d with
  | nil => simp [dget]
  | cons kv rest ih =>
    by_cases h : kv.1 = k
    · simp only [dget, if_pos h, Option.isSome_some, true_iff, List.map_cons,
        List.mem_cons]
      exact Or.inl h.symm
    · simp only [dget, if_neg h, List.map_cons, List.mem_cons, ih]
      constructor
      · exact Or.inr
      · rintro (he | hm)
        · exact absurd he.symm h
        · exact hm

theorem dget_eq_none_iff (d : Dict K) (k : K) :
    dget d k = none ↔ k ∉ d.map Prod.fst := by
  rw [← dget_isSome_iff]
  cases dget d k <;> simp

theorem dget_mem_fst {d : Dict K} {k : K} {i : Nat} (h : dget d k = some i) :
    k ∈ d.map Prod.fst := by
  rw [← dget_isSome_iff, h]; rfl

theorem fst_dset_mem (d : Dict K) {k : K} (v : Nat) (h : k ∈ d.map Prod.fst) :
    (dset d k v).map Prod.fst = d.map Prod.fst := by
  induction d with
  | nil => simp at h
  | cons kv rest ih =>
    by_cases h1 : kv.1 = k
    · simp [dset, h1]
    · have hm : k ∈ rest.map Prod.fst := by
        rcases List.mem_cons.mp h with he | hm
        · exact absurd he.symm h1
        · exact hm
      simp only [dset, if_neg h1, List.map_cons, ih hm]

theorem fst_dset_not_mem (d : Dict K) {k : K} (v : Nat)
    (h : k ∉ d.map Prod.fst) :
    (dset d k v).map Prod.fst = d.map Prod.fst ++ [k] := by
  induction d with
  | nil => simp [dset]
  | cons kv rest ih =>
    have h1 : ¬ kv.1 = k := fun he => h (by rw [List.map_cons, ← he]; exact List.mem_cons_self _ _)
    have h2 : k ∉ rest.map Prod.fst := fun hm => h (by rw [List.map_cons]; exact List.mem_cons_of_mem _ hm)
    simp only [dset, if_neg h1, List.map_cons, ih h2, List.cons_append]

theorem fst_ddel (d : Dict K) (k : K) :
    (ddel d k).map Prod.fst = (d.map Prod.fst).erase k := by
  induction d with
  | nil => simp [ddel]
  | cons kv rest ih =>
    by_cases h : kv.1 = k
    · simp [ddel, h, List.erase_cons_head]
    · rw [show ddel (kv :: rest) k = kv :: ddel rest k by simp [ddel, h]]
      simp only [List.map_cons, ih]
      rw [List.erase_cons_tail (by simpa using h)]

theorem dget_ddel_ne (d : Dict K) {k k' : K} (h : k' ≠ k) :
    dget (ddel d k) k' = dget d k' := by
  induction d with
  | nil => simp [ddel]
  | cons kv rest ih =>
    by_cases h1 : kv.1 = k
    · have h2 : ¬ kv.1 = k' := fun he => h (by rw [← he, h1])
      simp only [ddel, if_pos h1, dget, if_neg h2]
    · simp only [ddel, if_neg h1, dget, ih]

theorem dget_ddel_self (d : Dict K) (k : K) (h : (d.map Prod.fst).Nodup) :
    dget (ddel d k) k = none := by
  induction d with
  | nil => simp [ddel, dget]
  | cons kv rest ih =>
    simp only [List.map_cons, List.nodup_cons] at h
    by_cases h1 : kv.1 = k
    · simp only [ddel, if_pos h1]
      rw [dget_eq_none_iff, ← h1]
      exact h.1
    · simp only [ddel, if_neg h1, dget, if_neg h1, ih h.2]

/-! ### `smallestChild` case analysis -/

/-- Full case analysis of one `_sink_down` iteration's `smallest` computation:
either no existing child is strictly smaller and `smallest = index`, or
`smallest` is an existing child that is strictly smaller than the entry at
`index` and no larger than either existing child. -/
theorem sc_spec (pq : List (Entry K P)) (i : Nat) :
    (smallestChild pq i = i ∧
      (2 * i + 1 < pq.length → pri pq i ≤ pri pq (2 * i + 1)) ∧
      (2 * i + 2 < pq.length → pri pq i ≤ pri pq (2 * i + 2))) ∨
    ((smallestChild pq i = 2 * i + 1 ∨ smallestChild pq i = 2 * i + 2) ∧
      smallestChild pq i < pq.length ∧
      pri pq (smallestChild pq i) < pri pq i ∧
      (2 * i + 1 < pq.length → pri pq (smallestChild pq i) ≤ pri pq (2 * i + 1)) ∧
      (2 * i + 2 < pq.length → pri pq (smallestChild pq i) ≤ pri pq (2 * i + 2))) := by
  unfold smallestChild
  by_cases hL : 2 * i + 1 < pq.length ∧ pri pq (2 * i + 1) < pri pq i
  · rw [if_pos hL]
    by_cases hR : 2 * i + 2 < pq.length ∧ pri pq (2 * i + 2) < pri pq (2 * i + 1)
    · rw [if_pos hR]
      refine Or.inr ⟨Or.inr rfl, hR.1, lt_trans hR.2 hL.2, ?_, ?_⟩
      · exact fun _ => le_of_lt hR.2
      · exact fun _ => le_refl _
    · rw [if_neg hR]
      refine Or.inr ⟨Or.inl rfl, hL.1, hL.2, fun _ => le_refl _, ?_⟩
      intro h2
      by_contra hc
      exact hR ⟨h2, lt_of_not_le fun hle => hc hle⟩
  · rw [if_neg hL]
    by_cases hR : 2 * i + 2 < pq.length ∧ pri pq (2 * i + 2) < pri pq i
    · rw [if_pos hR]
      refine Or.inr ⟨Or.inr rfl, hR.1, hR.2, ?_, fun _ => le_refl _⟩
      intro h1
      have : pri pq i ≤ pri pq (2 * i + 1) :=
        le_of_not_lt fun hlt => hL ⟨h1, hlt⟩
      exact le_trans (le_of_lt hR.2) this
    · rw [if_neg hR]
      refine Or.inl ⟨rfl, ?_, ?_⟩
      · intro h1
        exact le_of_not_lt fun hlt => hL ⟨h1, hlt⟩
      · intro h2
        exact le_of_not_lt fun hlt => hR ⟨h2, hlt⟩

/-- When both children exist, both are strictly smaller than the parent, and
their priorities are equal, `_sink_down` picks the left child. -/
theorem sc_tie (pq : List (Entry K P)) (i : Nat)
    (hR : 2 * i + 2 < pq.length)
    (heq : pri pq (2 * i + 1) = pri pq (2 * i + 2))
    (hlt : pri pq (2 * i + 1) < pri pq i) :
    smallestChild pq i = 2 * i + 1 := by
  have h2 : ¬ (2 * i + 2 < pq.length ∧ pri pq (2 * i + 2) < pri pq (2 * i + 1)) := by
    rintro ⟨-, hc⟩
    rw [← heq] at hc
    exact lt_irrefl _ hc
  unfold smallestChild
  rw [if_pos (show 2 * i + 1 < pq.length ∧ pri pq (2 * i + 1) < pri pq i from
    ⟨by omega, hlt⟩)]
  rw [if_neg h2]

theorem heapProp_iff_heapFrom (pq : List (Entry K P)) :
    heapProp pq ↔ heapFrom 0 pq := by
  unfold heapProp heapFrom
  constructor
  · exact fun h j hj h0 _ => h j hj h0
  · exact fun h j hj h0 => h j hj h0 (Nat.zero_le _)

/-- Values at slots other than the two swapped ones are unchanged. -/
theorem pri_swap_other {pq : List (Entry K P)} {i s x : Nat}
    (hxi : x ≠ i) (hxs : x ≠ s) :
    pri ((pq.set i (ent pq s)).set s (ent pq i)) x = pri pq x := by
  rw [pri_set_ne _ (Ne.symm hxs), pri_set_ne _ (Ne.symm hxi)]

theorem pri_swap_fst {pq : List (Entry K P)} {i s : Nat}
    (his : i ≠ s) (hi : i < pq.length) :
    pri ((pq.set i (ent pq s)).set s (ent pq i)) i = pri pq s := by
  unfold pri
  rw [ent_set_ne _ (Ne.symm his), ent_set_self _ hi]

theorem pri_swap_snd {pq : List (Entry K P)} {i s : Nat}
    (hs : s < pq.length) :
    pri ((pq.set i (ent pq s)).set s (ent pq i)) s = pri pq i := by
  unfold pri
  rw [ent_set_self _ (by simpa using hs)]

/-- The sink-down loop restores the (scoped) heap property: if every in-scope
edge not out of slot `i` holds and the entry above `i` (when in scope) is no
larger than `i`'s children, then after the loop every in-scope edge holds. -/
theorem sinkGo_heapFrom (m : Nat) (fuel : Nat) :
    ∀ (pq : List (Entry K P)) (i : Nat),
    m ≤ i →
    pq.length ≤ fuel + i →
    (∀ j, j < pq.length → 0 < j → m ≤ (j - 1) / 2 → (j - 1) / 2 ≠ i →
      pri pq ((j - 1) / 2) ≤ pri pq j) →
    (∀ j, j < pq.length → (j = 2 * i + 1 ∨ j = 2 * i + 2) → 0 < i →
      m ≤ (i - 1) / 2 → pri pq ((i - 1) / 2) ≤ pri pq j) →
    heapFrom m (sinkDownListGo fuel pq i) := by
  induction fuel with
  | zero =>
    intro pq i _ hlen cond1 _
    simp only [sinkDownListGo]
    intro j hj h0 hm
    by_cases hpar : (j - 1) / 2 = i
    · omega
    · exact cond1 j hj h0 hm hpar
  | succ fuel ih =>
    intro pq i hmi hlen cond1 cond2
    simp only [sinkDownListGo]
    rcases sc_spec pq i with ⟨hsc, hbL, hbR⟩ | ⟨hchild, hsl, hslt, hbL, hbR⟩
    · rw [if_pos hsc]
      intro j hj h0 hm
      by_cases hpar : (j - 1) / 2 = i
      · have hj2 : j = 2 * i + 1 ∨ j = 2 * i + 2 := by omega
        rcases hj2 with h | h
        · subst h
          rw [show (2 * i + 1 - 1) / 2 = i by omega]
          exact hbL hj
        · subst h
          rw [show (2 * i + 2 - 1) / 2 = i by omega]
          exact hbR hj
      · exact cond1 j hj h0 hm hpar
    · have hsi : smallestChild pq i ≠ i := by omega
      rw [if_neg hsi]
      set s := smallestChild pq i with hs
      have his : i < s := by omega
      have hil : i < pq.length := lt_trans his hsl
      have hpars : (s - 1) / 2 = i := by omega
      set pq' := (pq.set i (ent pq s)).set s (ent pq i) with hpq'
      have hlen' : pq'.length = pq.length := by simp [hpq']
      apply ih pq' s (by omega) (by omega)
      · -- cond1 for the recursive call
        intro j hj h0 hm hpar
        rw [hlen'] at hj
        by_cases hpi : (j - 1) / 2 = i
        · by_cases hjs : j = s
          · -- the edge from slot i into slot s after the swap
            rw [hjs, hpars, hpq', pri_swap_fst (by omega) hil, pri_swap_snd hsl]
            exact le_of_lt hslt
          · -- the edge from slot i into the sibling of s
            have hji : j ≠ i := by omega
            rw [hpi, hpq', pri_swap_fst (by omega) hil, pri_swap_other hji hjs]
            have hj2 : j = 2 * i + 1 ∨ j = 2 * i + 2 := by omega
            rcases hj2 with h | h
            · exact h ▸ hbL (h ▸ hj)
            · exact h ▸ hbR (h ▸ hj)
        · by_cases hji : j = i
          · -- the edge into slot i, which now holds the old entry of s
            rw [hji] at hpi hpar hm h0 ⊢
            rw [hpq', pri_swap_other hpi hpar, pri_swap_fst (by omega) hil]
            exact cond2 s hsl hchild h0 hm
          · by_cases hjs : j = s
            · exact absurd (by rw [hjs]; exact hpars) hpi
            · rw [hpq', pri_swap_other (by omega) hpar, pri_swap_other hji hjs]
              exact cond1 j hj h0 hm hpi
      · -- cond2 for the recursive call: the entry above s vs children of s
        intro j hj hch h0s hms
        rw [hlen'] at hj
        have hji : j ≠ i := by omega
        have hjs : j ≠ s := by omega
        have hpj : (j - 1) / 2 = s := by omega
        rw [hpars, hpq', pri_swap_fst (by omega) hil, pri_swap_other hji hjs]
        have h1 := cond1 j hj (by omega) (by omega) (by omega)
        rwa [hpj] at h1

/-- The sift-up loop restores the heap property: if every edge not into slot
`i` holds and the entry above `i` is no larger than `i`'s children, then after
the loop every edge holds. -/
theorem siftGo_heapProp (fuel : Nat) :
    ∀ (pq : List (Entry K P)) (i : Nat),
    i ≤ fuel →
    i < pq.length →
    (∀ j, j < pq.length → 0 < j → j ≠ i → pri pq ((j - 1) / 2) ≤ pri pq j) →
    (∀ j, j < pq.length → (j = 2 * i + 1 ∨ j = 2 * i + 2) → 0 < i →
      pri pq ((i - 1) / 2) ≤ pri pq j) →
    heapProp (siftUpListGo fuel pq i) := by
  induction fuel with
  | zero =>
    intro pq i hfuel _ cond1 _
    have hi0 : i = 0 := by omega
    simp only [siftUpListGo]
    intro j hj h0
    exact cond1 j hj h0 (by omega)
  | succ fuel ih =>
    intro pq i hfuel hil cond1 cond2
    simp only [siftUpListGo]
    by_cases h0i : 0 < i
    · rw [if_pos h0i]
      by_cases hswap : pri pq i < pri pq ((i - 1) / 2)
      · rw [if_pos hswap]
        set p := (i - 1) / 2 with hp
        have hpi : p < i := by omega
        have hpl : p < pq.length := lt_trans hpi hil
        have hichild : i = 2 * p + 1 ∨ i = 2 * p + 2 := by omega
        set pq' := (pq.set i (ent pq p)).set p (ent pq i) with hpq'
        have hlen' : pq'.length = pq.length := by simp [hpq']
        apply ih pq' p (by omega) (by omega)
        · -- cond1 for the recursive call
          intro j hj h0 hjp
          rw [hlen'] at hj
          by_cases hji : j = i
          · -- edge from p into i, which now holds the old entry of p
            rw [hji, show (i - 1) / 2 = p from hp.symm, hpq',
              pri_swap_snd hpl, pri_swap_fst (by omega) hil]
            exact le_of_lt hswap
          · by_cases hpj : (j - 1) / 2 = p
            · -- edge from p into the sibling of i
              rw [hpj, hpq', pri_swap_snd hpl, pri_swap_other hji (by omega)]
              have hc : pri pq ((j - 1) / 2) ≤ pri pq j :=
                cond1 j hj h0 hji
              rw [hpj] at hc
              exact le_trans (le_of_lt hswap) hc
            · by_cases hpji : (j - 1) / 2 = i
              · -- edge from i into a child of i
                have hji' : j ≠ p := by omega
                rw [hpji, hpq', pri_swap_fst (by omega) hil,
                  pri_swap_other hji hji']
                have hj2 : j = 2 * i + 1 ∨ j = 2 * i + 2 := by omega
                exact cond2 j hj hj2 h0i
              · -- edge untouched by the swap
                rw [hpq', pri_swap_other hpji hpj, pri_swap_other hji hjp]
                exact cond1 j hj h0 hji
        · -- cond2 for the recursive call: grandparent vs children of p
          intro j hj hch h0p
          rw [hlen'] at hj
          set g := (p - 1) / 2 with hg
          have hgp : g < p := by omega
          have hgi : g ≠ i := by omega
          have hgp' : g ≠ p := by omega
          by_cases hji : j = i
          · rw [hji, hpq', pri_swap_other hgi hgp', pri_swap_fst (by omega) hil]
            have h1 := cond1 p hpl h0p (by omega)
            rwa [← hg] at h1
          · have hjp : j ≠ p := by omega
            rw [hpq', pri_swap_other hgi hgp', pri_swap_other hji hjp]
            have h1 : pri pq g ≤ pri pq p := by
              have := cond1 p hpl h0p (by omega)
              rwa [← hg] at this
            have h2 : pri pq p ≤ pri pq j := by
              have := cond1 j hj (by omega) hji
              rwa [show (j - 1) / 2 = p by omega] at this
            exact le_trans h1 h2
      · rw [if_neg hswap]
        intro j hj h0
        by_cases hji : j = i
        · rw [hji]
          exact le_of_not_lt hswap
        · exact cond1 j hj h0 hji
    · rw [if_neg h0i]
      intro j hj h0
      exact cond1 j hj h0 (by omega)

/-- Sinking inside a sequence that already satisfies the heap property does
nothing: no child is strictly smaller, so the loop exits immediately. -/
theorem sinkListGo_of_heap (fuel : Nat) (pq : List (Entry K P)) (i : Nat)
    (h : heapProp pq) : sinkDownListGo fuel pq i = pq := by
  cases fuel with
  | zero => rfl
  | succ fuel =>
    simp only [sinkDownListGo]
    rcases sc_spec pq i with ⟨hsc, -, -⟩ | ⟨hchild, hsl, hslt, -, -⟩
    · rw [if_pos hsc]
    · exfalso
      have hpar : (smallestChild pq i - 1) / 2 = i := by omega
      have := h (smallestChild pq i) hsl (by omega)
      rw [hpar] at this
      exact absurd hslt (not_lt_of_le this)

theorem sinkGo_of_heap (fuel : Nat) (pq : List (Entry K P)) (d : Dict K)
    (i : Nat) (h : heapProp pq) : sinkDownGo fuel pq d i = (pq, d) := by
  cases fuel with
  | zero => rfl
  | succ fuel =>
    simp only [sinkDownGo]
    rcases sc_spec pq i with ⟨hsc, -, -⟩ | ⟨hchild, hsl, hslt, -, -⟩
    · rw [if_pos hsc]
    · exfalso
      have hpar : (smallestChild pq i - 1) / 2 = i := by omega
      have := h (smallestChild pq i) hsl (by omega)
      rw [hpar] at this
      exact absurd hslt (not_lt_of_le this)

/-- The heap sequence computed by the index-maintaining sink loop is the same
as the pure-list sink loop's. -/
theorem fst_sinkDownGo (fuel : Nat) :
    ∀ (pq : List (Entry K P)) (d : Dict K) (i : Nat),
    (sinkDownGo fuel pq d i).1 = sinkDownListGo fuel pq i := by
  induction fuel with
  | zero => intro pq d i; rfl
  | succ fuel ih =>
    intro pq d i
    simp only [sinkDownGo, sinkDownListGo]
    by_cases hsc : smallestChild pq i = i
    · rw [if_pos hsc, if_pos hsc]
    · rw [if_neg hsc, if_neg hsc, ih]

theorem fst_siftUpGo (fuel : Nat) :
    ∀ (pq : List (Entry K P)) (d : Dict K) (i : Nat),
    (siftUpGo fuel pq d i).1 = siftUpListGo fuel pq i := by
  induction fuel with
  | zero => intro pq d i; rfl
  | succ fuel ih =>
    intro pq d i
    simp only [siftUpGo, siftUpListGo]
    by_cases h0 : 0 < i
    · rw [if_pos h0, if_pos h0]
      by_cases hswap : pri pq i < pri pq ((i - 1) / 2)
      · rw [if_pos hswap, if_pos hswap, ih]
      · rw [if_neg hswap, if_neg hswap]
    · rw [if_neg h0, if_neg h0]

/-- The sink loop permutes the heap sequence. -/
theorem sinkListGo_perm (fuel : Nat) :
    ∀ (pq : List (Entry K P)) (i : Nat),
    List.Perm (sinkDownListGo fuel pq i) pq := by
  induction fuel with
  | zero => intro pq i; exact List.Perm.refl _
  | succ fuel ih =>
    intro pq i
    simp only [sinkDownListGo]
    rcases sc_spec pq i with ⟨hsc, -, -⟩ | ⟨hchild, hsl, hslt, -, -⟩
    · rw [if_pos hsc]
    · have hsi : smallestChild pq i ≠ i := by omega
      rw [if_neg hsi]
      exact List.Perm.trans (ih _ _)
        (perm_set_swap (by omega) hsl (by omega))

/-- The sift-up loop permutes the heap sequence (for an in-range start). -/
theorem siftListGo_perm (fuel : Nat) :
    ∀ (pq : List (Entry K P)) (i : Nat), i < pq.length →
    List.Perm (siftUpListGo fuel pq i) pq := by
  induction fuel with
  | zero => intro pq i _; exact List.Perm.refl _
  | succ fuel ih =>
    intro pq i hil
    simp only [siftUpListGo]
    by_cases h0 : 0 < i
    · rw [if_pos h0]
      by_cases hswap : pri pq i < pri pq ((i - 1) / 2)
      · rw [if_pos hswap]
        have hpl : (i - 1) / 2 < pq.length := by
          have : (i - 1) / 2 < i := by omega
          omega
        refine List.Perm.trans (ih _ _ (by simpa using hpl)) ?_
        exact perm_set_swap hil hpl (by omega)
      · rw [if_neg hswap]
    · rw [if_neg h0]

theorem sinkListGo_length (fuel : Nat) (pq : List (Entry K P)) (i : Nat) :
    (sinkDownListGo fuel pq i).length = pq.length :=
  (sinkListGo_perm fuel pq i).length_eq

theorem siftListGo_length (fuel : Nat) (pq : List (Entry K P)) (i : Nat)
    (h : i < pq.length) : (siftUpListGo fuel pq i).length = pq.length :=
  (siftListGo_perm fuel pq i h).length_eq

/-! ### Consequences and preservation of the consistency invariant -/

theorem ent_key_ne {pq : List (Entry K P)} (hn : (pq.map Entry.key).Nodup)
    {i j : Nat} (hi : i < pq.length) (hj : j < pq.length) (hij : i ≠ j) :
    (ent pq i).key ≠ (ent pq j).key := by
  intro he
  have h1 : (pq.map Entry.key).get ⟨i, by simpa using hi⟩
      = (pq.map Entry.key).get ⟨j, by simpa using hj⟩ := by
    simp only [List.get_eq_getElem, List.getElem_map]
    rw [← ent_eq_getElem hi, ← ent_eq_getElem hj, he]
  have h2 := hn.get_inj_iff.mp h1
  exact hij (by simpa using h2)

theorem DInv.keys_perm {pq : List (Entry K P)} {d : Dict K} (h : DInv pq d) :
    List.Perm (pq.map Entry.key) (d.map Prod.fst) := by
  refine (h.1.subperm ?_).perm_of_length_le (by simp [h.2.2.1])
  intro k hk
  rw [List.mem_map] at hk
  obtain ⟨e, he, hek⟩ := hk
  obtain ⟨i, hi, hei⟩ := List.mem_iff_getElem.mp he
  have hkey : (ent pq i).key = k := by rw [ent_eq_getElem hi, hei, hek]
  exact hkey ▸ dget_mem_fst (h.2.2.2 i hi)

theorem DInv.dget_some {pq : List (Entry K P)} {d : Dict K} (h : DInv pq d)
    {k : K} {i : Nat} (hg : dget d k = some i) :
    i < pq.length ∧ (ent pq i).key = k := by
  have hk : k ∈ d.map Prod.fst := dget_mem_fst hg
  have hk2 : k ∈ pq.map Entry.key := h.keys_perm.mem_iff.mpr hk
  rw [List.mem_map] at hk2
  obtain ⟨e, he, hek⟩ := hk2
  obtain ⟨j, hj, hej⟩ := List.mem_iff_getElem.mp he
  have hkey : (ent pq j).key = k := by rw [ent_eq_getElem hj, hej, hek]
  have h2 := h.2.2.2 j hj
  rw [hkey, hg] at h2
  obtain rfl : i = j := by injection h2
  exact ⟨hj, hkey⟩

theorem DInv.mem_iff {pq : List (Entry K P)} {d : Dict K} (h : DInv pq d)
    (k : K) : dmem d k = true ↔ k ∈ pq.map Entry.key := by
  rw [dmem, dget_isSome_iff]
  exact (h.keys_perm.mem_iff).symm

theorem DInv.dsync {pq : List (Entry K P)} {d : Dict K} (h : DInv pq d) :
    DSync pq d :=
  ⟨h.1, h.2.1, h.2.2.2⟩

theorem DInv_of_dsync {pq : List (Entry K P)} {d : Dict K} (h : DSync pq d)
    (hl : d.length = pq.length) : DInv pq d :=
  ⟨h.1, h.2.1, hl, h.2.2⟩

/-- A position-index-synchronized swap of two distinct in-range heap slots
preserves synchronization and leaves the index map's key list unchanged. -/
theorem DSync_swap {pq : List (Entry K P)} {d : Dict K} (h : DSync pq d)
    {i s : Nat} (hi : i < pq.length) (hs : s < pq.length) (his : i ≠ s) :
    DSync ((pq.set i (ent pq s)).set s (ent pq i))
      (dset (dset d (ent pq s).key i) (ent pq i).key s) ∧
    (dset (dset d (ent pq s).key i) (ent pq i).key s).map Prod.fst
      = d.map Prod.fst := by
  obtain ⟨hnK, hnD, hpos⟩ := h
  have hperm : List.Perm ((pq.set i (ent pq s)).set s (ent pq i)) pq :=
    perm_set_swap hi hs his
  have hkne : (ent pq i).key ≠ (ent pq s).key := ent_key_ne hnK hi hs his
  have hbmem : (ent pq s).key ∈ d.map Prod.fst := dget_mem_fst (hpos s hs)
  have hamem : (ent pq i).key ∈ d.map Prod.fst := dget_mem_fst (hpos i hi)
  have hfst1 : (dset d (ent pq s).key i).map Prod.fst = d.map Prod.fst :=
    fst_dset_mem _ _ hbmem
  have hfst2 : (dset (dset d (ent pq s).key i) (ent pq i).key s).map Prod.fst
      = d.map Prod.fst := by
    rw [fst_dset_mem _ _ (by rw [hfst1]; exact hamem), hfst1]
  refine ⟨⟨((hperm.map Entry.key).nodup_iff).mpr hnK, hfst2 ▸ hnD, ?_⟩, hfst2⟩
  intro j hj
  rw [hperm.length_eq] at hj
  by_cases hjs : j = s
  · subst hjs
    rw [ent_set_self _ (by simpa using hs), dget_dset_self]
  · by_cases hji : j = i
    · subst hji
      rw [ent_set_ne _ (Ne.symm (by omega : j ≠ s)),
        ent_set_self _ hi, dget_dset_ne _ _ (Ne.symm hkne), dget_dset_self]
    · rw [ent_set_ne _ (Ne.symm hjs), ent_set_ne _ (Ne.symm hji)]
      have hne1 : (ent pq j).key ≠ (ent pq i).key := ent_key_ne hnK hj hi hji
      have hne2 : (ent pq j).key ≠ (ent pq s).key := ent_key_ne hnK hj hs hjs
      rw [dget_dset_ne _ _ hne1, dget_dset_ne _ _ hne2]
      exact hpos j hj

/-- The sink-down loop preserves synchronization and the index map's keys. -/
theorem sinkDownGo_sync (fuel : Nat) :
    ∀ (pq : List (Entry K P)) (d : Dict K) (i : Nat), DSync pq d →
    DSync (sinkDownGo fuel pq d i).1 (sinkDownGo fuel pq d i).2 ∧
    (sinkDownGo fuel pq d i).2.map Prod.fst = d.map Prod.fst := by
  induction fuel with
  | zero => intro pq d i h; exact ⟨h, rfl⟩
  | succ fuel ih =>
    intro pq d i h
    simp only [sinkDownGo]
    rcases sc_spec pq i with ⟨hsc, -, -⟩ | ⟨hchild, hsl, hslt, -, -⟩
    · rw [if_pos hsc]; exact ⟨h, rfl⟩
    · have hsi : smallestChild pq i ≠ i := by omega
      rw [if_neg hsi]
      have hil : i < pq.length := by omega
      obtain ⟨hsync, hfst⟩ := DSync_swap h hil hsl (by omega)
      obtain ⟨hs1, hs2⟩ := ih _ _ _ hsync
      exact ⟨hs1, by rw [hs2, hfst]⟩

/-- The sift-up loop preserves synchronization and the index map's keys. -/
theorem siftUpGo_sync (fuel : Nat) :
    ∀ (pq : List (Entry K P)) (d : Dict K) (i : Nat), i < pq.length →
    DSync pq d →
    DSync (siftUpGo fuel pq d i).1 (siftUpGo fuel pq d i).2 ∧
    (siftUpGo fuel pq d i).2.map Prod.fst = d.map Prod.fst := by
  induction fuel with
  | zero => intro pq d i _ h; exact ⟨h, rfl⟩
  | succ fuel ih =>
    intro pq d i hil h
    simp only [siftUpGo]
    by_cases h0 : 0 < i
    · rw [if_pos h0]
      by_cases hswap : pri pq i < pri pq ((i - 1) / 2)
      · rw [if_pos hswap]
        have hpl : (i - 1) / 2 < pq.length := by
          have : (i - 1) / 2 < i := by omega
          omega
        obtain ⟨hsync, hfst⟩ := DSync_swap h hil hpl (by omega)
        obtain ⟨hs1, hs2⟩ := ih _ _ _ (by simpa using hpl) hsync
        exact ⟨hs1, by rw [hs2, hfst]⟩
      · rw [if_neg hswap]; exact ⟨h, rfl⟩
    · rw [if_neg h0]; exact ⟨h, rfl⟩

/-! ### Characterization and preservation for each public operation -/

theorem heapProp_nil : heapProp ([] : List (Entry K P)) := by
  intro j hj
  simp at hj

theorem set_ent_self (pq : List (Entry K P)) (i : Nat) :
    pq.set i (ent pq i) = pq := by
  induction pq generalizing i with
  | nil => rfl
  | cons hd tl ih =>
    cases i with
    | zero => rfl
    | succ n =>
      show hd :: tl.set n (ent (hd :: tl) (n + 1)) = hd :: tl
      rw [show ent (hd :: tl) (n + 1) = ent tl n from rfl, ih]

theorem pri_append_lt {pq l : List (Entry K P)} {x : Nat} (h : x < pq.length) :
    pri (pq ++ l) x = pri pq x := by
  unfold pri
  rw [ent_append_lt h]

theorem heapProp_dropLast {pq : List (Entry K P)} (h : heapProp pq) :
    heapProp pq.dropLast := by
  intro j hj h0
  rw [List.length_dropLast] at hj
  unfold pri
  rw [ent_dropLast hj, ent_dropLast (by omega)]
  exact h j (by omega) h0

/-- When the loop guard of `_sift_up` fails at entry, the loop is a no-op. -/
theorem siftUpGo_no_swap (fuel : Nat) (pq : List (Entry K P)) (d : Dict K)
    (i : Nat) (h : ¬ 0 < i ∨ ¬ pri pq i < pri pq ((i - 1) / 2)) :
    siftUpGo fuel pq d i = (pq, d) := by
  cases fuel with
  | zero => rfl
  | succ fuel =>
    simp only [siftUpGo]
    rcases h with h | h
    · rw [if_neg h]
    · by_cases h0 : 0 < i
      · rw [if_pos h0, if_neg h]
      · rw [if_neg h0]

theorem dict_length_eq_fst_length (d : Dict K) :
    d.length = (d.map Prod.fst).length := by
  simp

/-- `insertCore` written with explicit loop arguments. -/
theorem insertCore_def (q : IHQ K P) (k : K) (p : P) :
    insertCore q k p =
      ⟨(siftUpGo q.pq.length (q.pq ++ [⟨k, p⟩])
          (dset q.pq_index k q.pq.length) q.pq.length).1,
       (siftUpGo q.pq.length (q.pq ++ [⟨k, p⟩])
          (dset q.pq_index k q.pq.length) q.pq.length).2⟩ := by
  unfold insertCore siftUp
  simp [List.length_append]

/-- After `insert`'s body the heap property holds. -/
theorem insertCore_heapProp (q : IHQ K P) (k : K) (p : P)
    (hh : heapProp q.pq) : heapProp (insertCore q k p).pq := by
  rw [insertCore_def]
  show heapProp (siftUpGo q.pq.length (q.pq ++ [⟨k, p⟩]) _ q.pq.length).1
  rw [fst_siftUpGo]
  apply siftGo_heapProp q.pq.length _ q.pq.length (le_refl _)
    (by simp [List.length_append])
  · intro j hj h0 hjn
    simp only [List.length_append, List.length_singleton] at hj
    have hjl : j < q.pq.length := lt_of_le_of_ne (by omega) hjn
    rw [pri_append_lt hjl, pri_append_lt (by omega)]
    exact hh j hjl h0
  · intro j hj hch h0
    simp only [List.length_append, List.length_singleton] at hj
    omega

/-- After `insert`'s body the consistency invariant holds. -/
theorem insertCore_InvP (q : IHQ K P) (k : K) (p : P)
    (hq : InvP q) (hk : dmem q.pq_index k = false) :
    InvP (insertCore q k p) := by
  have hkK : k ∉ q.pq.map Entry.key := by
    intro hm
    rw [← hq.mem_iff k] at hm
    rw [hk] at hm
    exact Bool.false_ne_true hm
  have hkD : k ∉ q.pq_index.map Prod.fst := by
    rw [← dget_isSome_iff]
    rw [dmem] at hk
    simp [hk]
  have hfst1 : (dset q.pq_index k q.pq.length).map Prod.fst
      = q.pq_index.map Prod.fst ++ [k] := fst_dset_not_mem _ _ hkD
  have hsync : DSync (q.pq ++ [⟨k, p⟩]) (dset q.pq_index k q.pq.length) := by
    refine ⟨?_, ?_, ?_⟩
    · rw [List.map_append]
      exact List.Nodup.append hq.1 (by simp)
        (by simpa [List.disjoint_singleton] using hkK)
    · rw [hfst1]
      exact List.Nodup.append hq.2.1 (by simp)
        (by simpa [List.disjoint_singleton] using hkD)
    · intro j hj
      simp only [List.length_append, List.length_singleton] at hj
      by_cases hjl : j = q.pq.length
      · subst hjl
        rw [ent_concat_length, dget_dset_self]
      · have hjl' : j < q.pq.length := lt_of_le_of_ne (by omega) hjl
        rw [ent_append_lt hjl']
        have hne : (ent q.pq j).key ≠ k := by
          intro he
          refine hkK ?_
          rw [← he]
          refine List.mem_map_of_mem Entry.key ?_
          rw [ent_eq_getElem hjl']
          exact List.getElem_mem hjl'
        rw [dget_dset_ne _ _ hne]
        exact hq.2.2.2 j hjl'
  rw [insertCore_def]
  obtain ⟨hs, hfst⟩ := siftUpGo_sync q.pq.length _ _ q.pq.length
    (by simp [List.length_append]) hsync
  refine DInv_of_dsync hs ?_
  rw [dict_length_eq_fst_length, hfst, hfst1, fst_siftUpGo,
    siftListGo_length _ _ _ (by simp [List.length_append])]
  simp only [List.length_append, List.length_singleton, List.length_map]
  rw [hq.2.2.1]

theorem set_getD_self {α : Type} [Inhabited α] (l : List α) (i : Nat) :
    l.set i (l.getD i default) = l := by
  induction l generalizing i with
  | nil => rfl
  | cons hd tl ih =>
    cases i with
    | zero => rfl
    | succ n =>
      show hd :: tl.set n ((hd :: tl).getD (n + 1) default) = hd :: tl
      rw [show (hd :: tl).getD (n + 1) default = tl.getD n default from rfl, ih]

theorem key_ent_eq_getD (pq : List (Entry K P)) (i : Nat) :
    (ent pq i).key = (pq.map Entry.key).getD i default := by
  by_cases h : i < pq.length
  · rw [ent_eq_getElem h, List.getD_eq_getElem _ _ (by simpa using h),
      List.getElem_map]
  · rw [ent_eq_default (by omega), List.getD_eq_default _ _ (by simpa using h)]
    rfl

/-- Overwriting a slot with an entry carrying the same key leaves the key
sequence unchanged. -/
theorem map_key_set_same (pq : List (Entry K P)) (i : Nat) (p : P) :
    (pq.set i ⟨(ent pq i).key, p⟩).map Entry.key = pq.map Entry.key := by
  rw [List.map_set, key_ent_eq_getD, set_getD_self]

/-- `updateCore` (strictly-decreasing case) with explicit loop arguments. -/
theorem updateCore_def_lt (q : IHQ K P) (i : Nat) (p : P)
    (hlt : p < pri q.pq i) :
    updateCore q i p =
      ⟨(siftUpGo i (q.pq.set i ⟨(ent q.pq i).key, p⟩) q.pq_index i).1,
       (siftUpGo i (q.pq.set i ⟨(ent q.pq i).key, p⟩) q.pq_index i).2⟩ := by
  unfold updateCore siftUp
  simp only []
  rw [if_pos (show p < (ent q.pq i).priority from hlt)]

/-- `updateCore` (non-decreasing case) with explicit loop arguments. -/
theorem updateCore_def_ge (q : IHQ K P) (i : Nat) (p : P)
    (hge : ¬ p < pri q.pq i) :
    updateCore q i p =
      ⟨(sinkDownGo q.pq.length (q.pq.set i ⟨(ent q.pq i).key, p⟩) q.pq_index i).1,
       (sinkDownGo q.pq.length (q.pq.set i ⟨(ent q.pq i).key, p⟩) q.pq_index i).2⟩ := by
  unfold updateCore sinkDown
  simp only []
  rw [if_neg (show ¬ p < (ent q.pq i).priority from hge)]
  simp [List.length_set]

theorem pri_upd_self {q : IHQ K P} {i : Nat} {p : P} (hi : i < q.pq.length) :
    pri (q.pq.set i ⟨(ent q.pq i).key, p⟩) i = p := by
  unfold pri
  rw [ent_set_self _ hi]

/-- After `update`'s body the heap property holds. -/
theorem updateCore_heapProp (q : IHQ K P) (i : Nat) (p : P)
    (hh : heapProp q.pq) (hi : i < q.pq.length) :
    heapProp (updateCore q i p).pq := by
  set pq1 := q.pq.set i ⟨(ent q.pq i).key, p⟩ with hpq1
  have hlen1 : pq1.length = q.pq.length := by simp [hpq1]
  have hother : ∀ x, x ≠ i → pri pq1 x = pri q.pq x := by
    intro x hx
    rw [hpq1, pri_set_ne _ (Ne.symm hx)]
  have hself : pri pq1 i = p := pri_upd_self hi
  by_cases hlt : p < pri q.pq i
  · rw [updateCore_def_lt q i p hlt]
    show heapProp (siftUpGo i pq1 q.pq_index i).1
    rw [fst_siftUpGo]
    apply siftGo_heapProp i pq1 i (le_refl _) (by omega)
    · intro j hj h0 hji
      rw [hlen1] at hj
      by_cases hpj : (j - 1) / 2 = i
      · rw [hpj, hself, hother j hji]
        have := hh j hj h0
        rw [hpj] at this
        exact le_trans (le_of_lt hlt) this
      · rw [hother j hji, hother _ hpj]
        exact hh j hj h0
    · intro j hj hch h0
      rw [hlen1] at hj
      have hji : j ≠ i := by omega
      have hpi : (i - 1) / 2 ≠ i := by omega
      rw [hother j hji, hother _ hpi]
      have h1 := hh i hi h0
      have h2 := hh j hj (by omega)
      rw [show (j - 1) / 2 = i by omega] at h2
      exact le_trans h1 h2
  · rw [updateCore_def_ge q i p hlt]
    show heapProp (sinkDownGo q.pq.length pq1 q.pq_index i).1
    rw [fst_sinkDownGo]
    rw [heapProp_iff_heapFrom]
    apply sinkGo_heapFrom 0 q.pq.length pq1 i (Nat.zero_le _) (by omega)
    · intro j hj h0 _ hpj
      rw [hlen1] at hj
      by_cases hji : j = i
      · subst hji
        rw [hself, hother _ hpj]
        exact le_trans (hh j hj h0) (le_of_not_lt hlt)
      · rw [hother j hji, hother _ hpj]
        exact hh j hj h0
    · intro j hj hch h0 _
      rw [hlen1] at hj
      have hji : j ≠ i := by omega
      have hpi : (i - 1) / 2 ≠ i := by omega
      rw [hother j hji, hother _ hpi]
      have h1 := hh i hi h0
      have h2 := hh j hj (by omega)
      rw [show (j - 1) / 2 = i by omega] at h2
      exact le_trans h1 h2

/-- After `update`'s body the consistency invariant holds. -/
theorem updateCore_InvP (q : IHQ K P) (i : Nat) (p : P)
    (hq : InvP q) (hi : i < q.pq.length) :
    InvP (updateCore q i p) := by
  set pq1 := q.pq.set i ⟨(ent q.pq i).key, p⟩ with hpq1
  have hlen1 : pq1.length = q.pq.length := by simp [hpq1]
  have hsync : DSync pq1 q.pq_index := by
    refine ⟨?_, hq.2.1, ?_⟩
    · rw [hpq1, map_key_set_same]
      exact hq.1
    · intro j hj
      rw [hlen1] at hj
      by_cases hji : j = i
      · subst hji
        rw [hpq1, ent_set_self _ hj]
        exact hq.2.2.2 j hj
      · rw [hpq1, ent_set_ne _ (Ne.symm hji)]
        exact hq.2.2.2 j hj
  by_cases hlt : p < pri q.pq i
  · rw [updateCore_def_lt q i p hlt]
    obtain ⟨hs, hfst⟩ := siftUpGo_sync i pq1 q.pq_index i (by simpa [hpq1] using hi)
      hsync
    refine DInv_of_dsync hs ?_
    rw [dict_length_eq_fst_length, hfst, ← dict_length_eq_fst_length,
      hq.2.2.1, fst_siftUpGo, siftListGo_length _ _ _ (by simpa [hpq1] using hi),
      hlen1]
  · rw [updateCore_def_ge q i p hlt]
    obtain ⟨hs, hfst⟩ := sinkDownGo_sync q.pq.length pq1 q.pq_index i hsync
    refine DInv_of_dsync hs ?_
    rw [dict_length_eq_fst_length, hfst, ← dict_length_eq_fst_length,
      hq.2.2.1, fst_sinkDownGo, sinkListGo_length, hlen1]

theorem getD_last {α : Type} [Inhabited α] (l : List α) (h : l ≠ []) :
    l.getD (l.length - 1) default = l.getLast h := by
  have hl : 0 < l.length := List.length_pos.mpr h
  rw [List.getD_eq_getElem _ _ (by omega), List.getLast_eq_getElem]

theorem nodup_set_of_not_mem {α : Type} {l : List α} {a : α} (hn : l.Nodup)
    (ha : a ∉ l) : ∀ i, (l.set i a).Nodup := by
  induction l with
  | nil => intro i; cases i <;> simp
  | cons hd tl ih =>
    intro i
    rw [List.nodup_cons] at hn
    have ha1 : a ≠ hd := fun he => ha (he ▸ List.mem_cons_self _ _)
    have ha2 : a ∉ tl := fun hm => ha (List.mem_cons_of_mem _ hm)
    cases i with
    | zero =>
      rw [List.set_cons_zero, List.nodup_cons]
      exact ⟨ha2, hn.2⟩
    | succ n =>
      rw [List.set_cons_succ, List.nodup_cons]
      refine ⟨?_, ih hn.2 ha2 n⟩
      intro hm
      rcases List.mem_or_eq_of_mem_set hm with hm | hm
      · exact hn.1 hm
      · exact ha1 hm.symm

theorem not_mem_set_self {α : Type} [Inhabited α] {l : List α} {a : α}
    (hn : l.Nodup) {i : Nat} (hi : i < l.length)
    (ha : a ≠ l.getD i default) : l.getD i default ∉ l.set i a := by
  induction l generalizing i with
  | nil => simp at hi
  | cons hd tl ih =>
    rw [List.nodup_cons] at hn
    cases i with
    | zero =>
      rw [List.set_cons_zero]
      intro hm
      rcases List.mem_cons.mp hm with hm | hm
      · exact ha hm.symm
      · exact hn.1 (by simpa using hm)
    | succ n =>
      rw [List.set_cons_succ]
      intro hm
      have hn' : n < tl.length := by simpa using hi
      have he : (hd :: tl).getD (n + 1) default = tl.getD n default := rfl
      rcases List.mem_cons.mp hm with hm | hm
      · refine hn.1 ?_
        rw [he, List.getD_eq_getElem _ _ hn'] at hm
        rw [← hm]
        exact List.getElem_mem hn'
      · rw [he] at hm ha
        exact ih hn.2 hn' ha hm

theorem getD_dropLast {α : Type} [Inhabited α] {l : List α} {i : Nat}
    (h : i < l.length - 1) : l.dropLast.getD i default = l.getD i default := by
  rw [List.getD_eq_getElem _ _ (by simpa using h),
    List.getD_eq_getElem _ _ (by omega : i < l.length)]
  simp [List.getElem_dropLast]

theorem getD_mem {α : Type} [Inhabited α] {l : List α} {i : Nat}
    (h : i < l.length) : l.getD i default ∈ l := by
  rw [List.getD_eq_getElem _ _ h]
  exact List.getElem_mem h

theorem dropLast_decomp {α : Type} [Inhabited α] {l : List α}
    (h2 : 1 ≤ l.length) :
    l.dropLast ++ [l.getD (l.length - 1) default] = l := by
  have h : l ≠ [] := by
    intro he
    subst he
    simp at h2
  rw [getD_last l h]
  exact List.dropLast_append_getLast h

theorem last_not_mem_dropLast {α : Type} [Inhabited α] {l : List α}
    (hn : l.Nodup) (h2 : 1 ≤ l.length) :
    l.getD (l.length - 1) default ∉ l.dropLast := by
  have hn2 : (l.dropLast ++ [l.getD (l.length - 1) default]).Nodup := by
    rw [dropLast_decomp h2]
    exact hn
  rw [List.nodup_append] at hn2
  intro hm
  exact hn2.2.2 hm (List.mem_singleton.mpr rfl)

theorem nodup_dropLast {α : Type} {l : List α} (hn : l.Nodup) :
    l.dropLast.Nodup :=
  hn.sublist (List.dropLast_sublist l)

theorem nodup_dropLast_set {α : Type} [Inhabited α] {l : List α}
    (hn : l.Nodup) (h2 : 1 ≤ l.length) (i : Nat) :
    (l.dropLast.set i (l.getD (l.length - 1) default)).Nodup :=
  nodup_set_of_not_mem (nodup_dropLast hn) (last_not_mem_dropLast hn h2) i

theorem removed_not_mem_dropLast_set {α : Type} [Inhabited α] {l : List α}
    (hn : l.Nodup) {i : Nat} (hi : i < l.length - 1) :
    l.getD i default ∉ l.dropLast.set i (l.getD (l.length - 1) default) := by
  have hdl : i < l.dropLast.length := by simpa using hi
  have hgd : l.dropLast.getD i default = l.getD i default := getD_dropLast hi
  rw [← hgd]
  refine not_mem_set_self (nodup_dropLast hn) hdl ?_
  intro he
  refine last_not_mem_dropLast hn (by omega) ?_
  rw [he]
  exact getD_mem hdl

/-- The keys of the sequence after moving the last entry into slot `i` of the
shrunk sequence. -/
theorem map_key_dropLast_set (pq : List (Entry K P)) (i : Nat) :
    ((pq.dropLast).set i (ent pq (pq.length - 1))).map Entry.key
      = ((pq.map Entry.key).dropLast).set i
          ((pq.map Entry.key).getD (pq.length - 1) default) := by
  rw [List.map_set, List.map_dropLast, key_ent_eq_getD]

theorem pop_def_empty (q : IHQ K P) (h : q.pq = []) :
    pop q = .error .emptyQueue := by
  unfold pop
  rw [if_pos (by simp [h])]

theorem pop_def_one (q : IHQ K P) (h : q.pq.length = 1) :
    pop q = .ok (((ent q.pq 0).key, (ent q.pq 0).priority),
      ⟨[], ddel q.pq_index (ent q.pq 0).key⟩) := by
  have hne : ¬ q.pq.isEmpty = true := by
    rw [List.isEmpty_iff]
    intro he
    rw [he] at h
    simp at h
  have hd : q.pq.dropLast = [] := by
    have : q.pq.dropLast.length = 0 := by simp [h]
    exact List.length_eq_zero.mp this
  unfold pop
  rw [if_neg hne]
  simp only [hd]
  rw [if_pos (show ([] : List (Entry K P)).isEmpty = true from rfl)]

theorem pop_def_big (q : IHQ K P) (h2 : 2 ≤ q.pq.length) :
    pop q = .ok (((ent q.pq 0).key, (ent q.pq 0).priority),
      ⟨(sinkDownGo (q.pq.length - 1)
          (q.pq.dropLast.set 0 (ent q.pq (q.pq.length - 1)))
          (dset q.pq_index (ent q.pq (q.pq.length - 1)).key 0) 0).1,
        ddel (sinkDownGo (q.pq.length - 1)
          (q.pq.dropLast.set 0 (ent q.pq (q.pq.length - 1)))
          (dset q.pq_index (ent q.pq (q.pq.length - 1)).key 0) 0).2
          (ent q.pq 0).key⟩) := by
  have hne : ¬ q.pq.isEmpty = true := by
    rw [List.isEmpty_iff]
    intro he
    rw [he] at h2
    simp at h2
  have hdne : ¬ q.pq.dropLast.isEmpty = true := by
    rw [List.isEmpty_iff, ← List.length_eq_zero, List.length_dropLast]
    omega
  unfold pop sinkDown
  rw [if_neg hne, if_neg hdne]
  simp only []
  have hfuel : (q.pq.dropLast.set 0 (ent q.pq (q.pq.length - 1))).length
      = q.pq.length - 1 := by
    simp
  rw [hfuel]

/-- After a successful `pop` the heap property holds. -/
theorem pop_heapProp (q : IHQ K P) {kp : K × P} {q' : IHQ K P}
    (hh : heapProp q.pq) (hpop : pop q = .ok (kp, q')) : heapProp q'.pq := by
  by_cases hemp : q.pq = []
  · rw [pop_def_empty q hemp] at hpop
    cases hpop
  · by_cases h1 : q.pq.length = 1
    · rw [pop_def_one q h1] at hpop
      rw [Except.ok.injEq, Prod.mk.injEq] at hpop
      rw [← hpop.2]
      exact heapProp_nil
    · have h2 : 2 ≤ q.pq.length := by
        have := List.length_pos.mpr hemp
        omega
      rw [pop_def_big q h2] at hpop
      rw [Except.ok.injEq, Prod.mk.injEq] at hpop
      rw [← hpop.2]
      show heapProp (sinkDownGo (q.pq.length - 1) _ _ 0).1
      rw [fst_sinkDownGo, heapProp_iff_heapFrom]
      set pq2 := q.pq.dropLast.set 0 (ent q.pq (q.pq.length - 1)) with hpq2
      have hlen2 : pq2.length = q.pq.length - 1 := by simp [hpq2]
      apply sinkGo_heapFrom 0 (q.pq.length - 1) pq2 0 (Nat.zero_le _) (by omega)
      · intro j hj h0 _ hpj
        rw [hlen2] at hj
        have hpri : ∀ x, x ≠ 0 → x < q.pq.length - 1 → pri pq2 x = pri q.pq x := by
          intro x hx hxl
          rw [hpq2]
          unfold pri
          rw [ent_set_ne _ (Ne.symm hx), ent_dropLast hxl]
        rw [hpri j (by omega) hj, hpri _ hpj (by omega)]
        exact hh j (by omega) h0
      · intro j hj hch h0
        omega

/-- After a successful `pop` the consistency invariant holds. -/
theorem pop_InvP (q : IHQ K P) {kp : K × P} {q' : IHQ K P}
    (hq : InvP q) (hpop : pop q = .ok (kp, q')) : InvP q' := by
  by_cases hemp : q.pq = []
  · rw [pop_def_empty q hemp] at hpop
    cases hpop
  · have hl1 : 1 ≤ q.pq.length := List.length_pos.mpr hemp
    have hmk : dget q.pq_index (ent q.pq 0).key = some 0 := hq.2.2.2 0 (by omega)
    have hmkmem : (ent q.pq 0).key ∈ q.pq_index.map Prod.fst := dget_mem_fst hmk
    by_cases h1 : q.pq.length = 1
    · rw [pop_def_one q h1] at hpop
      rw [Except.ok.injEq, Prod.mk.injEq] at hpop
      rw [← hpop.2]
      refine ⟨by simp, ?_, ?_, by intro i hi; simp at hi⟩
      · rw [fst_ddel]
        exact hq.2.1.erase _
      · rw [dict_length_eq_fst_length, fst_ddel]
        have := List.length_erase_add_one hmkmem
        have hdl := hq.2.2.1
        simp only [List.length_map, List.length_nil] at this ⊢
        omega
    · have h2 : 2 ≤ q.pq.length := by omega
      rw [pop_def_big q h2] at hpop
      rw [Except.ok.injEq, Prod.mk.injEq] at hpop
      rw [← hpop.2]
      set pq2 := q.pq.dropLast.set 0 (ent q.pq (q.pq.length - 1)) with hpq2
      set d1 := dset q.pq_index (ent q.pq (q.pq.length - 1)).key 0 with hd1
      have hlen2 : pq2.length = q.pq.length - 1 := by simp [hpq2]
      have hlk : dget q.pq_index (ent q.pq (q.pq.length - 1)).key
          = some (q.pq.length - 1) := hq.2.2.2 _ (by omega)
      have hlkmem : (ent q.pq (q.pq.length - 1)).key ∈ q.pq_index.map Prod.fst :=
        dget_mem_fst hlk
      have hfst1 : d1.map Prod.fst = q.pq_index.map Prod.fst := by
        rw [hd1]
        exact fst_dset_mem _ _ hlkmem
      have hkeys2 : pq2.map Entry.key
          = ((q.pq.map Entry.key).dropLast).set 0
              ((q.pq.map Entry.key).getD ((q.pq.map Entry.key).length - 1) default) := by
        rw [hpq2, map_key_dropLast_set]
        simp
      have hmknot : (ent q.pq 0).key ∉ pq2.map Entry.key := by
        rw [hkeys2, key_ent_eq_getD]
        have hrem := removed_not_mem_dropLast_set (l := q.pq.map Entry.key) hq.1
          (i := 0) (by simp; omega)
        simpa using hrem
      have hsync2 : DSync pq2 d1 := by
        refine ⟨?_, hfst1 ▸ hq.2.1, ?_⟩
        · rw [hkeys2]
          exact nodup_dropLast_set hq.1 (by simp; omega) 0
        · intro j hj
          rw [hlen2] at hj
          by_cases hj0 : j = 0
          · subst hj0
            rw [hpq2, ent_set_self _ (by simp; omega), hd1, dget_dset_self]
          · rw [hpq2, ent_set_ne _ (Ne.symm hj0), ent_dropLast (by omega)]
            have hne : (ent q.pq j).key ≠ (ent q.pq (q.pq.length - 1)).key :=
              ent_key_ne hq.1 (by omega) (by omega) (by omega)
            rw [hd1, dget_dset_ne _ _ hne]
            exact hq.2.2.2 j (by omega)
      obtain ⟨hs, hfst⟩ := sinkDownGo_sync (q.pq.length - 1) pq2 d1 0 hsync2
      set r := sinkDownGo (q.pq.length - 1) pq2 d1 0 with hr
      have hr1keys : List.Perm (r.1.map Entry.key) (pq2.map Entry.key) := by
        rw [hr, fst_sinkDownGo]
        exact (sinkListGo_perm _ _ _).map _
      have hr1len : r.1.length = pq2.length := by
        rw [hr, fst_sinkDownGo]
        exact sinkListGo_length _ _ _
      refine ⟨hs.1, ?_, ?_, ?_⟩
      · rw [fst_ddel, hfst, hfst1]
        exact hq.2.1.erase _
      · rw [dict_length_eq_fst_length, fst_ddel, hfst, hfst1]
        have hera := List.length_erase_add_one hmkmem
        have hdl := hq.2.2.1
        simp only [List.length_map] at hera hdl ⊢
        rw [hr1len, hlen2]
        omega
      · intro j hj
        have hkne : (ent r.1 j).key ≠ (ent q.pq 0).key := by
          intro he
          refine hmknot ?_
          rw [← he]
          refine hr1keys.mem_iff.mp ?_
          rw [key_ent_eq_getD]
          exact getD_mem (by simpa using hj)
        rw [dget_ddel_ne _ hkne]
        exact hs.2.2 j hj

theorem removeCore_def_last (q : IHQ K P) (k : K) (i : Nat)
    (hi : ¬ i < q.pq.length - 1) :
    removeCore q k i = ⟨q.pq.dropLast, ddel q.pq_index k⟩ := by
  unfold removeCore
  simp only []
  rw [if_neg (by simpa using hi)]

theorem removeCore_def_mid (q : IHQ K P) (k : K) (i : Nat)
    (hi : i < q.pq.length - 1) :
    removeCore q k i =
      (let pq2 := q.pq.dropLast.set i (ent q.pq (q.pq.length - 1));
       let d1 := dset q.pq_index (ent q.pq (q.pq.length - 1)).key i;
       let r1 := siftUpGo i pq2 d1 i;
       let r2 := sinkDownGo (q.pq.length - 1) r1.1 r1.2 i;
       ⟨r2.1, ddel r2.2 k⟩) := by
  unfold removeCore siftUp sinkDown
  simp only []
  rw [if_pos (by simpa using hi)]
  have hlen2 : (q.pq.dropLast.set i (ent q.pq (q.pq.length - 1))).length
      = q.pq.length - 1 := by simp
  have hr1len : (siftUpGo i (q.pq.dropLast.set i (ent q.pq (q.pq.length - 1)))
      (dset q.pq_index (ent q.pq (q.pq.length - 1)).key i) i).1.length
      = q.pq.length - 1 := by
    rw [fst_siftUpGo, siftListGo_length _ _ _ (by omega), hlen2]
  rw [hr1len]

/-- After `remove`'s body the heap property holds. -/
theorem removeCore_heapProp (q : IHQ K P) (k : K) (i : Nat)
    (hh : heapProp q.pq) (hi : i < q.pq.length) :
    heapProp (removeCore q k i).pq := by
  by_cases hmid : i < q.pq.length - 1
  · rw [removeCore_def_mid q k i hmid]
    simp only []
    set pq2 := q.pq.dropLast.set i (ent q.pq (q.pq.length - 1)) with hpq2
    set d1 := dset q.pq_index (ent q.pq (q.pq.length - 1)).key i with hd1
    have hlen2 : pq2.length = q.pq.length - 1 := by simp [hpq2]
    have hpri2 : ∀ x, x ≠ i → x < q.pq.length - 1 → pri pq2 x = pri q.pq x := by
      intro x hx hxl
      rw [hpq2]
      unfold pri
      rw [ent_set_ne _ (Ne.symm hx), ent_dropLast hxl]
    by_cases hf : 0 < i ∧ pri pq2 i < pri pq2 ((i - 1) / 2)
    · -- the sift-up fires: it fully restores the heap; the sink is a no-op
      have hheap1 : heapProp (siftUpGo i pq2 d1 i).1 := by
        rw [fst_siftUpGo]
        apply siftGo_heapProp i pq2 i (le_refl _) (by omega)
        · intro j hj h0 hji
          rw [hlen2] at hj
          by_cases hpj : (j - 1) / 2 = i
          · rw [hpj, hpri2 j hji hj]
            have hparne : (i - 1) / 2 ≠ i := by omega
            have h1 : pri pq2 i < pri q.pq ((i - 1) / 2) := by
              rw [← hpri2 _ hparne (by omega)]
              exact hf.2
            have h2 : pri q.pq ((i - 1) / 2) ≤ pri q.pq i := hh i hi hf.1
            have h3 : pri q.pq i ≤ pri q.pq j := by
              have := hh j (by omega) h0
              rwa [hpj] at this
            exact le_of_lt (lt_of_lt_of_le h1 (le_trans h2 h3))
          · rw [hpri2 j hji hj, hpri2 _ hpj (by omega)]
            exact hh j (by omega) h0
        · intro j hj hch h0
          rw [hlen2] at hj
          have hji : j ≠ i := by omega
          have hpi : (i - 1) / 2 ≠ i := by omega
          rw [hpri2 j hji hj, hpri2 _ hpi (by omega)]
          have h1 := hh i hi h0
          have h2 := hh j (by omega) (by omega)
          rw [show (j - 1) / 2 = i by omega] at h2
          exact le_trans h1 h2
      rw [sinkGo_of_heap _ _ _ _ hheap1]
      exact hheap1
    · -- the sift-up is a no-op; the sink restores the heap
      rw [siftUpGo_no_swap i pq2 d1 i (by
        by_cases h0 : 0 < i
        · right; intro hb; exact hf ⟨h0, hb⟩
        · left; exact h0)]
      show heapProp (sinkDownGo (q.pq.length - 1) pq2 d1 i).1
      rw [fst_sinkDownGo, heapProp_iff_heapFrom]
      apply sinkGo_heapFrom 0 (q.pq.length - 1) pq2 i (Nat.zero_le _) (by omega)
      · intro j hj h0 _ hpj
        rw [hlen2] at hj
        by_cases hji : j = i
        · subst hji
          have h0i : 0 < j := h0
          refine le_of_not_lt ?_
          intro hb
          exact hf ⟨h0i, hb⟩
        · rw [hpri2 j hji hj, hpri2 _ hpj (by omega)]
          exact hh j (by omega) h0
      · intro j hj hch h0 _
        rw [hlen2] at hj
        have hji : j ≠ i := by omega
        have hpi : (i - 1) / 2 ≠ i := by omega
        rw [hpri2 j hji hj, hpri2 _ hpi (by omega)]
        have h1 := hh i hi h0
        have h2 := hh j (by omega) (by omega)
        rw [show (j - 1) / 2 = i by omega] at h2
        exact le_trans h1 h2
  · rw [removeCore_def_last q k i hmid]
    exact heapProp_dropLast hh

/-- After `remove`'s body the consistency invariant holds (for the slot
actually holding the removed key). -/
theorem removeCore_InvP (q : IHQ K P) (k : K) (i : Nat)
    (hq : InvP q) (hi : i < q.pq.length) (hkey : (ent q.pq i).key = k) :
    InvP (removeCore q k i) := by
  have hkmem : k ∈ q.pq_index.map Prod.fst := by
    rw [← hkey]
    exact dget_mem_fst (hq.2.2.2 i hi)
  by_cases hmid : i < q.pq.length - 1
  · rw [removeCore_def_mid q k i hmid]
    simp only []
    set pq2 := q.pq.dropLast.set i (ent q.pq (q.pq.length - 1)) with hpq2
    set d1 := dset q.pq_index (ent q.pq (q.pq.length - 1)).key i with hd1
    have hlen2 : pq2.length = q.pq.length - 1 := by simp [hpq2]
    have hlk : dget q.pq_index (ent q.pq (q.pq.length - 1)).key
        = some (q.pq.length - 1) := hq.2.2.2 _ (by omega)
    have hlkmem : (ent q.pq (q.pq.length - 1)).key ∈ q.pq_index.map Prod.fst :=
      dget_mem_fst hlk
    have hfst1 : d1.map Prod.fst = q.pq_index.map Prod.fst := by
      rw [hd1]
      exact fst_dset_mem _ _ hlkmem
    have hkeys2 : pq2.map Entry.key
        = ((q.pq.map Entry.key).dropLast).set i
            ((q.pq.map Entry.key).getD ((q.pq.map Entry.key).length - 1) default) := by
      rw [hpq2, map_key_dropLast_set]
      simp
    have hknot : k ∉ pq2.map Entry.key := by
      rw [hkeys2, ← hkey, key_ent_eq_getD]
      have hrem := removed_not_mem_dropLast_set (l := q.pq.map Entry.key) hq.1
        (i := i) (by simp; omega)
      simpa using hrem
    have hsync2 : DSync pq2 d1 := by
      refine ⟨?_, hfst1 ▸ hq.2.1, ?_⟩
      · rw [hkeys2]
        exact nodup_dropLast_set hq.1 (by simp; omega) i
      · intro j hj
        rw [hlen2] at hj
        by_cases hji : j = i
        · subst hji
          rw [hpq2, ent_set_self _ (by simp; omega), hd1, dget_dset_self]
        · rw [hpq2, ent_set_ne _ (Ne.symm hji), ent_dropLast (by omega)]
          have hne : (ent q.pq j).key ≠ (ent q.pq (q.pq.length - 1)).key :=
            ent_key_ne hq.1 (by omega) (by omega) (by omega)
          rw [hd1, dget_dset_ne _ _ hne]
          exact hq.2.2.2 j (by omega)
    obtain ⟨hs1, hfsta⟩ := siftUpGo_sync i pq2 d1 i (by omega) hsync2
    set r1 := siftUpGo i pq2 d1 i with hr1
    obtain ⟨hs2, hfstb⟩ := sinkDownGo_sync (q.pq.length - 1) r1.1 r1.2 i hs1
    set r2 := sinkDownGo (q.pq.length - 1) r1.1 r1.2 i with hr2
    have hr1keys : List.Perm (r1.1.map Entry.key) (pq2.map Entry.key) := by
      rw [hr1, fst_siftUpGo]
      exact (siftListGo_perm _ _ _ (by omega)).map _
    have hr2keys : List.Perm (r2.1.map Entry.key) (pq2.map Entry.key) := by
      refine List.Perm.trans ?_ hr1keys
      rw [hr2, fst_sinkDownGo]
      exact (sinkListGo_perm _ _ _).map _
    have hr2len : r2.1.length = q.pq.length - 1 := by
      have := hr2keys.length_eq
      simp only [List.length_map] at this
      rw [this, hlen2]
    refine ⟨hs2.1, ?_, ?_, ?_⟩
    · rw [fst_ddel, hfstb, hfsta, hfst1]
      exact hq.2.1.erase _
    · rw [dict_length_eq_fst_length, fst_ddel, hfstb, hfsta, hfst1]
      have hera := List.length_erase_add_one hkmem
      have hdl := hq.2.2.1
      simp only [List.length_map] at hera hdl ⊢
      rw [hr2len]
      omega
    · intro j hj
      have hkne : (ent r2.1 j).key ≠ k := by
        intro he
        refine hknot ?_
        rw [← he]
        refine hr2keys.mem_iff.mp ?_
        rw [key_ent_eq_getD]
        exact getD_mem (by simpa using hj)
      rw [dget_ddel_ne _ hkne]
      exact hs2.2.2 j hj
  · rw [removeCore_def_last q k i hmid]
    have hieq : i = q.pq.length - 1 := by omega
    refine ⟨?_, ?_, ?_, ?_⟩
    · rw [List.map_dropLast]
      exact nodup_dropLast hq.1
    · rw [fst_ddel]
      exact hq.2.1.erase _
    · rw [dict_length_eq_fst_length, fst_ddel]
      have hera := List.length_erase_add_one hkmem
      have hdl := hq.2.2.1
      simp only [List.length_map, List.length_dropLast] at hera hdl ⊢
      omega
    · intro j hj
      simp only [List.length_dropLast] at hj
      show dget (ddel q.pq_index k) (ent q.pq.dropLast j).key = some j
      rw [ent_dropLast hj]
      have hkne : (ent q.pq j).key ≠ k := by
        rw [← hkey]
        exact ent_key_ne hq.1 (by omega) hi (by omega)
      rw [dget_ddel_ne _ hkne]
      exact hq.2.2.2 j (by omega)

/-! ### Bulk construction: heapify and reindexing -/

/-- Bottom-up heapify establishes the heap property: after processing
counter value `m`, all edges with parent slot `≥ m` hold. -/
theorem heapFrom_heapifyFromList : ∀ (m : Nat) (pq : List (Entry K P)),
    heapFrom m pq → heapProp (heapifyFromList pq m) := by
  intro m
  induction m with
  | zero =>
    intro pq h
    exact (heapProp_iff_heapFrom pq).mpr h
  | succ n ih =>
    intro pq h
    show heapProp (heapifyFromList (sinkDownList pq n) n)
    apply ih
    unfold sinkDownList
    apply sinkGo_heapFrom n pq.length pq n (le_refl _) (by omega)
    · intro j hj h0 hm hne
      exact h j hj h0 (by omega)
    · intro j hj hch h0 hmn
      omega

theorem heapProp_heapifyList (pq : List (Entry K P)) :
    heapProp (heapifyList pq) := by
  apply heapFrom_heapifyFromList
  intro j hj h0 hm
  omega

theorem heapifyFromList_perm : ∀ (m : Nat) (pq : List (Entry K P)),
    List.Perm (heapifyFromList pq m) pq := by
  intro m
  induction m with
  | zero => intro pq; exact List.Perm.refl _
  | succ n ih =>
    intro pq
    exact List.Perm.trans (ih (sinkDownList pq n)) (sinkListGo_perm _ _ _)

theorem heapifyList_perm (pq : List (Entry K P)) :
    List.Perm (heapifyList pq) pq :=
  heapifyFromList_perm _ pq

theorem reindexGo_dget_not_mem {pqX : List (Entry K P)} {k : K}
    (hk : k ∉ pqX.map Entry.key) :
    ∀ (d : Dict K) (i0 : Nat), dget (reindexGo d pqX i0) k = dget d k := by
  induction pqX with
  | nil => intro d i0; rfl
  | cons e rest ih =>
    intro d i0
    have hke : ¬ k = e.key := fun he => hk (by rw [he]; simp)
    have hkr : k ∉ rest.map Entry.key := fun hm => hk (by simp [hm])
    show dget (reindexGo (dset d e.key i0) rest (i0 + 1)) k = dget d k
    rw [ih hkr, dget_dset_ne _ _ hke]

theorem reindexGo_dget_at {pqX : List (Entry K P)}
    (hn : (pqX.map Entry.key).Nodup) :
    ∀ (d : Dict K) (i0 : Nat) (j : Nat), j < pqX.length →
    dget (reindexGo d pqX i0) (ent pqX j).key = some (i0 + j) := by
  induction pqX with
  | nil => intro d i0 j hj; simp at hj
  | cons e rest ih =>
    intro d i0 j hj
    rw [List.map_cons, List.nodup_cons] at hn
    cases j with
    | zero =>
      show dget (reindexGo (dset d e.key i0) rest (i0 + 1)) e.key = some i0
      rw [reindexGo_dget_not_mem hn.1, dget_dset_self]
    | succ n =>
      show dget (reindexGo (dset d e.key i0) rest (i0 + 1)) (ent rest n).key
        = some (i0 + (n + 1))
      rw [ih hn.2 _ (i0 + 1) n (by simpa using hj)]
      congr 1
      omega

theorem reindexGo_fst {pqX : List (Entry K P)} :
    ∀ (d : Dict K) (i0 : Nat), (∀ e ∈ pqX, e.key ∈ d.map Prod.fst) →
    (reindexGo d pqX i0).map Prod.fst = d.map Prod.fst := by
  induction pqX with
  | nil => intro d i0 _; rfl
  | cons e rest ih =>
    intro d i0 hsub
    show (reindexGo (dset d e.key i0) rest (i0 + 1)).map Prod.fst = d.map Prod.fst
    have hfst : (dset d e.key i0).map Prod.fst = d.map Prod.fst :=
      fst_dset_mem _ _ (hsub e (List.mem_cons_self _ _))
    rw [ih _ _ (fun e' he' => by rw [hfst]; exact hsub e' (List.mem_cons_of_mem _ he')),
      hfst]

theorem ofMapping_fst (m : List (K × P)) :
    (ofMapping (K := K) (P := P) m).pq_index.map Prod.fst = m.map Prod.fst := by
  unfold ofMapping reindex
  simp only []
  have hperm : List.Perm ((heapifyList (m.map fun kp => Entry.mk kp.1 kp.2)).map
      Entry.key) (m.map Prod.fst) := by
    refine List.Perm.trans ((heapifyList_perm _).map _) ?_
    rw [List.map_map]
    exact List.Perm.refl _
  have hfst0 : (m.map fun kp => ((kp.1 : K), (0 : Nat))).map Prod.fst
      = m.map Prod.fst := by
    rw [List.map_map]
    exact List.map_congr_left fun kp _ => rfl
  rw [reindexGo_fst _ _ ?_, hfst0]
  intro e he
  rw [hfst0]
  exact hperm.mem_iff.mp (List.mem_map_of_mem Entry.key he)

theorem ofMapping_heapProp (m : List (K × P)) :
    heapProp (ofMapping (K := K) (P := P) m).pq :=
  heapProp_heapifyList _

theorem ofMapping_keys_perm (m : List (K × P)) :
    List.Perm ((ofMapping (K := K) (P := P) m).pq.map Entry.key)
      (m.map Prod.fst) := by
  show List.Perm ((heapifyList (m.map fun kp => Entry.mk kp.1 kp.2)).map
    Entry.key) (m.map Prod.fst)
  refine List.Perm.trans ((heapifyList_perm _).map _) ?_
  rw [List.map_map]
  exact List.Perm.refl _

theorem ofMapping_InvP (m : List (K × P)) (hnd : (m.map Prod.fst).Nodup) :
    InvP (ofMapping (K := K) (P := P) m) := by
  have hkeys := ofMapping_keys_perm m
  refine ⟨hkeys.nodup_iff.mpr hnd, ?_, ?_, ?_⟩
  · rw [ofMapping_fst]
    exact hnd
  · rw [dict_length_eq_fst_length, ofMapping_fst]
    show (m.map Prod.fst).length
      = (heapifyList (m.map fun kp => Entry.mk kp.1 kp.2)).length
    rw [(heapifyList_perm _).length_eq]
    simp
  · intro j hj
    have hj' : j < (heapifyList (m.map fun kp => Entry.mk kp.1 kp.2)).length := hj
    show dget (reindexGo (m.map fun kp => ((kp.1 : K), (0 : Nat)))
      (heapifyList (m.map fun kp => Entry.mk kp.1 kp.2)) 0)
      (ent (heapifyList (m.map fun kp => Entry.mk kp.1 kp.2)) j).key = some j
    have hat := reindexGo_dget_at
      (hkeys.nodup_iff.mpr hnd) (m.map fun kp => ((kp.1 : K), (0 : Nat))) 0 j hj'
    simpa using hat

theorem ofMapping_pairs_perm (m : List (K × P)) :
    List.Perm (pairs (ofMapping (K := K) (P := P) m)) m := by
  unfold pairs
  refine List.Perm.trans ((heapifyList_perm _).map _) ?_
  rw [List.map_map]
  have : ((fun e : Entry K P => (e.key, e.priority)) ∘ fun kp : K × P =>
      Entry.mk kp.1 kp.2) = fun kp => kp := by
    funext kp
    rfl
  rw [this, List.map_id']

/-! ### The stored (key, priority) multiset of each operation -/

theorem perm_set_eraseIdx {α : Type} (l : List α) (i : Nat) (a : α)
    (h : i < l.length) : List.Perm (l.set i a) (a :: l.eraseIdx i) := by
  induction l generalizing i with
  | nil => simp at h
  | cons hd tl ih =>
    cases i with
    | zero => exact List.Perm.refl _
    | succ n =>
      rw [List.set_cons_succ, List.eraseIdx_cons_succ]
      refine List.Perm.trans (List.Perm.cons hd (ih n (by simpa using h))) ?_
      exact List.Perm.swap a hd _

theorem perm_cons_eraseIdx {α : Type} [Inhabited α] (l : List α) (i : Nat)
    (h : i < l.length) :
    List.Perm l (l.getD i default :: l.eraseIdx i) := by
  have hs := perm_set_eraseIdx l i (l.getD i default) h
  rw [set_getD_self] at hs
  exact hs

theorem perm_dropLast_set_eraseIdx {α : Type} [Inhabited α] (l : List α)
    (i : Nat) (h : i < l.length - 1) :
    List.Perm (l.dropLast.set i (l.getD (l.length - 1) default))
      (l.eraseIdx i) := by
  have hdl : i < l.dropLast.length := by simpa using h
  have h1 := perm_set_eraseIdx l.dropLast i (l.getD (l.length - 1) default) hdl
  have h2 : l.eraseIdx i = l.dropLast.eraseIdx i ++ [l.getD (l.length - 1) default] := by
    conv =>
      lhs
      rw [← dropLast_decomp (l := l) (by omega)]
    rw [List.eraseIdx_append_of_lt_length hdl]
  rw [h2]
  exact List.Perm.trans h1 (List.perm_append_singleton _ _).symm

/-- The `(key, priority)` pair at a slot, as `getD` on the pair list. -/
theorem pair_ent_eq_getD (pq : List (Entry K P)) (i : Nat) :
    ((ent pq i).key, (ent pq i).priority)
      = (pq.map fun e => (e.key, e.priority)).getD i default := by
  by_cases h : i < pq.length
  · rw [ent_eq_getElem h, List.getD_eq_getElem _ _ (by simpa using h),
      List.getElem_map]
  · rw [ent_eq_default (by omega), List.getD_eq_default _ _ (by simpa using h)]
    rfl

theorem insertCore_pairs (q : IHQ K P) (k : K) (p : P) :
    List.Perm (pairs (insertCore q k p)) ((k, p) :: pairs q) := by
  rw [insertCore_def]
  show List.Perm (((siftUpGo q.pq.length (q.pq ++ [⟨k, p⟩])
    (dset q.pq_index k q.pq.length) q.pq.length).1).map _) _
  rw [fst_siftUpGo]
  refine List.Perm.trans ((siftListGo_perm _ _ _ (by simp)).map _) ?_
  rw [List.map_append]
  have hsing : (List.map (fun e : Entry K P => (e.key, e.priority)) [⟨k, p⟩])
      = [(k, p)] := rfl
  rw [hsing]
  show List.Perm (pairs q ++ [(k, p)]) _
  exact List.perm_append_singleton _ _

theorem updateCore_pairs (q : IHQ K P) (i : Nat) (p : P)
    (hi : i < q.pq.length) :
    List.Perm (pairs (updateCore q i p))
      (((ent q.pq i).key, p) :: (pairs q).eraseIdx i) := by
  have hperm1 : List.Perm ((q.pq.set i ⟨(ent q.pq i).key, p⟩).map
      fun e => (e.key, e.priority))
      (((ent q.pq i).key, p) :: (pairs q).eraseIdx i) := by
    rw [List.map_set]
    exact perm_set_eraseIdx _ _ _ (by simpa using hi)
  by_cases hlt : p < pri q.pq i
  · rw [updateCore_def_lt q i p hlt]
    show List.Perm (((siftUpGo i (q.pq.set i ⟨(ent q.pq i).key, p⟩)
      q.pq_index i).1).map _) _
    rw [fst_siftUpGo]
    exact List.Perm.trans ((siftListGo_perm _ _ _ (by simpa using hi)).map _) hperm1
  · rw [updateCore_def_ge q i p hlt]
    show List.Perm (((sinkDownGo q.pq.length (q.pq.set i ⟨(ent q.pq i).key, p⟩)
      q.pq_index i).1).map _) _
    rw [fst_sinkDownGo]
    exact List.Perm.trans ((sinkListGo_perm _ _ _).map _) hperm1

theorem removeCore_pairs (q : IHQ K P) (k : K) (i : Nat)
    (hi : i < q.pq.length) :
    List.Perm (pairs (removeCore q k i)) ((pairs q).eraseIdx i) := by
  have hpq2 : ((q.pq.dropLast.set i (ent q.pq (q.pq.length - 1))).map
      fun e => (e.key, e.priority))
      = ((pairs q).dropLast).set i ((pairs q).getD ((pairs q).length - 1) default) := by
    rw [List.map_set, List.map_dropLast, pair_ent_eq_getD]
    unfold pairs
    rw [List.length_map]
  by_cases hmid : i < q.pq.length - 1
  · rw [removeCore_def_mid q k i hmid]
    simp only []
    show List.Perm (((sinkDownGo (q.pq.length - 1) _ _ i).1).map _) _
    rw [fst_sinkDownGo]
    refine List.Perm.trans ((sinkListGo_perm _ _ _).map _) ?_
    show List.Perm (((siftUpGo i (q.pq.dropLast.set i (ent q.pq (q.pq.length - 1)))
      (dset q.pq_index (ent q.pq (q.pq.length - 1)).key i) i).1).map _) _
    rw [fst_siftUpGo]
    refine List.Perm.trans ((siftListGo_perm _ _ _ (by simp; omega)).map _) ?_
    rw [hpq2]
    refine perm_dropLast_set_eraseIdx (pairs q) i ?_
    unfold pairs
    rw [List.length_map]
    omega
  · rw [removeCore_def_last q k i hmid]
    show List.Perm (q.pq.dropLast.map fun e => (e.key, e.priority)) _
    rw [List.map_dropLast]
    have hieq : i = q.pq.length - 1 := by omega
    rw [List.dropLast_eq_eraseIdx (i := i)
      (by rw [List.length_map]; omega)]
    exact List.Perm.refl _

theorem pop_pairs (q : IHQ K P) {kp : K × P} {q' : IHQ K P}
    (hpop : pop q = .ok (kp, q')) :
    List.Perm (pairs q) (kp :: pairs q') := by
  by_cases hemp : q.pq = []
  · rw [pop_def_empty q hemp] at hpop
    cases hpop
  · have hl1 : 1 ≤ q.pq.length := List.length_pos.mpr hemp
    have hroot : kp = ((ent q.pq 0).key, (ent q.pq 0).priority) ∧
        List.Perm (pairs q') ((pairs q).eraseIdx 0) := by
      by_cases h1 : q.pq.length = 1
      · rw [pop_def_one q h1] at hpop
        rw [Except.ok.injEq, Prod.mk.injEq] at hpop
        refine ⟨hpop.1.symm, ?_⟩
        rw [← hpop.2]
        show List.Perm (([] : List (Entry K P)).map _) _
        have hlp : (pairs q).length = 1 := by
          unfold pairs
          rw [List.length_map]
          omega
        obtain ⟨a, ha⟩ := List.length_eq_one.mp hlp
        rw [ha]
        exact List.Perm.refl []
      · have h2 : 2 ≤ q.pq.length := by omega
        rw [pop_def_big q h2] at hpop
        rw [Except.ok.injEq, Prod.mk.injEq] at hpop
        refine ⟨hpop.1.symm, ?_⟩
        rw [← hpop.2]
        show List.Perm (((sinkDownGo (q.pq.length - 1) _ _ 0).1).map _) _
        rw [fst_sinkDownGo]
        refine List.Perm.trans ((sinkListGo_perm _ _ _).map _) ?_
        have hpq2 : ((q.pq.dropLast.set 0 (ent q.pq (q.pq.length - 1))).map
            fun e => (e.key, e.priority))
            = ((pairs q).dropLast).set 0
                ((pairs q).getD ((pairs q).length - 1) default) := by
          rw [List.map_set, List.map_dropLast, pair_ent_eq_getD]
          unfold pairs
          rw [List.length_map]
        rw [hpq2]
        refine perm_dropLast_set_eraseIdx (pairs q) 0 ?_
        unfold pairs
        rw [List.length_map]
        omega
    obtain ⟨hkp, hperm⟩ := hroot
    have hp0 : (pairs q).getD 0 default = kp := by
      rw [hkp, pair_ent_eq_getD]
      rfl
    refine List.Perm.trans (perm_cons_eraseIdx (pairs q) 0
      (by unfold pairs; rw [List.length_map]; omega)) ?_
    rw [hp0]
    exact List.Perm.cons kp hperm.symm

/-! ### Observable behaviour from the stored multiset -/

theorem get_eq_of_mem_pairs {q : IHQ K P} (hq : InvP q) {k : K} {p : P}
    (hm : (k, p) ∈ pairs q) : get q k = .ok p := by
  unfold pairs at hm
  rw [List.mem_map] at hm
  obtain ⟨e, he, hpair⟩ := hm
  obtain ⟨i, hi, hei⟩ := List.mem_iff_getElem.mp he
  have hent : ent q.pq i = e := by rw [ent_eq_getElem hi, hei]
  have hkey : (ent q.pq i).key = k := by
    rw [hent]
    exact congrArg Prod.fst hpair
  have hg : dget q.pq_index k = some i := by
    rw [← hkey]
    exact hq.2.2.2 i hi
  have hpri : pri q.pq i = p := by
    unfold pri
    rw [hent]
    exact congrArg Prod.snd hpair
  unfold get
  rw [hg]
  show Except.ok (pri q.pq i) = Except.ok p
  rw [hpri]

theorem contains_iff_pairs {q : IHQ K P} (hq : InvP q) (k : K) :
    contains q k = true ↔ ∃ p, (k, p) ∈ pairs q := by
  unfold contains pairs
  rw [hq.mem_iff k]
  constructor
  · intro hm
    rw [List.mem_map] at hm
    obtain ⟨e, he, hek⟩ := hm
    exact ⟨e.priority, List.mem_map.mpr ⟨e, he, by rw [hek]⟩⟩
  · rintro ⟨p, hm⟩
    rw [List.mem_map] at hm
    obtain ⟨e, he, hpair⟩ := hm
    exact List.mem_map.mpr ⟨e, he, congrArg Prod.fst hpair⟩

theorem get_err_iff (q : IHQ K P) (k : K) :
    get q k = .error .keyNotFound ↔ contains q k = false := by
  unfold get contains dmem
  cases dget q.pq_index k <;> simp

theorem size_pairs (q : IHQ K P) : size q = (pairs q).length := by
  unfold size pairs
  rw [List.length_map]

/-! ### Pop order: root minimality, draining the queue -/

theorem heapProp_root_le {pq : List (Entry K P)} (hh : heapProp pq) :
    ∀ i, i < pq.length → pri pq 0 ≤ pri pq i := by
  intro i
  induction i using Nat.strong_induction_on with
  | _ i ih =>
    intro hi
    rcases Nat.eq_zero_or_pos i with h0 | h0
    · subst h0
      exact le_refl _
    · have hpar := hh i hi h0
      have hup := ih ((i - 1) / 2) (by omega) (by omega)
      exact le_trans hup hpar

theorem mem_pairs_pri {q : IHQ K P} {pr : K × P} (hm : pr ∈ pairs q) :
    ∃ i, i < q.pq.length ∧ pri q.pq i = pr.2 := by
  unfold pairs at hm
  rw [List.mem_map] at hm
  obtain ⟨e, he, hpe⟩ := hm
  obtain ⟨i, hi, hei⟩ := List.mem_iff_getElem.mp he
  refine ⟨i, hi, ?_⟩
  unfold pri
  rw [ent_eq_getElem hi, hei]
  exact congrArg Prod.snd hpe

/-- A successful `pop` returns the root pair and shrinks the sequence by 1. -/
theorem pop_spec (q : IHQ K P) (hne : q.pq ≠ []) :
    ∃ q', pop q = .ok (((ent q.pq 0).key, pri q.pq 0), q') ∧
      q'.pq.length = q.pq.length - 1 := by
  have hl1 : 1 ≤ q.pq.length := List.length_pos.mpr hne
  by_cases h1 : q.pq.length = 1
  · exact ⟨_, pop_def_one q h1, by simp [h1]⟩
  · refine ⟨_, pop_def_big q (by omega), ?_⟩
    show (sinkDownGo (q.pq.length - 1) _ _ 0).1.length = q.pq.length - 1
    rw [fst_sinkDownGo, sinkListGo_length]
    simp

/-- Draining a consistent heap yields exactly its stored pairs, with
priorities in non-decreasing order. -/
theorem popAllGo_spec : ∀ (fuel : Nat) (q : IHQ K P), q.pq.length ≤ fuel →
    InvP q → heapProp q.pq →
    List.Perm (popAllGo fuel q) (pairs q) ∧
    List.Sorted (· ≤ ·) ((popAllGo fuel q).map Prod.snd) := by
  intro fuel
  induction fuel with
  | zero =>
    intro q hlen _ _
    have hnil : q.pq = [] := List.length_eq_zero.mp (by omega)
    constructor
    · show List.Perm [] (pairs q)
      unfold pairs
      rw [hnil]
      exact List.Perm.refl _
    · exact List.sorted_nil
  | succ fuel ih =>
    intro q hlen hq hh
    by_cases hemp : q.pq = []
    · have hp := pop_def_empty q hemp
      show List.Perm (popAllGo (fuel + 1) q) (pairs q) ∧ _
      simp only [popAllGo, hp]
      constructor
      · show List.Perm [] (pairs q)
        unfold pairs
        rw [hemp]
        exact List.Perm.refl _
      · exact List.sorted_nil
    · obtain ⟨q', hpop, hlenq'⟩ := pop_spec q hemp
      have hl1 : 1 ≤ q.pq.length := List.length_pos.mpr hemp
      have hInv' := pop_InvP q hq hpop
      have hh' := pop_heapProp q hh hpop
      obtain ⟨ihp, ihs⟩ := ih q' (by omega) hInv' hh'
      have hpp := pop_pairs q hpop
      simp only [popAllGo, hpop]
      constructor
      · exact List.Perm.trans
          (List.Perm.cons ((ent q.pq 0).key, pri q.pq 0) ihp) hpp.symm
      · rw [List.map_cons, List.sorted_cons]
        refine ⟨?_, ihs⟩
        intro b hb
        rw [List.mem_map] at hb
        obtain ⟨pr, hpr, hprb⟩ := hb
        have hpr' : pr ∈ pairs q' := ihp.mem_iff.mp hpr
        have hprq : pr ∈ pairs q := by
          rw [hpp.mem_iff]
          exact List.mem_cons_of_mem _ hpr'
        obtain ⟨i, hi, hpri⟩ := mem_pairs_pri hprq
        rw [← hprb, ← hpri]
        exact heapProp_root_le hh i hi

theorem popAll_spec (q : IHQ K P) (hq : InvP q) (hh : heapProp q.pq) :
    List.Perm (popAll q) (pairs q) ∧
    List.Sorted (· ≤ ·) ((popAll q).map Prod.snd) :=
  popAllGo_spec q.pq.length q (le_refl _) hq hh

theorem keys_eq_pairs_fst (q : IHQ K P) :
    q.pq.map Entry.key = (pairs q).map Prod.fst := by
  unfold pairs
  rw [List.map_map]
  exact List.map_congr_left fun e _ => rfl

theorem foldl_applyInsert_spec :
    ∀ (l : List (K × P)) (q : IHQ K P), InvP q → heapProp q.pq →
    (l.map Prod.fst).Nodup →
    (∀ x ∈ l.map Prod.fst, x ∉ q.pq.map Entry.key) →
    InvP (l.foldl applyInsert q) ∧ heapProp (l.foldl applyInsert q).pq ∧
    List.Perm (pairs (l.foldl applyInsert q)) (pairs q ++ l) := by
  intro l
  induction l with
  | nil =>
    intro q hq hh _ _
    exact ⟨hq, hh, by simp⟩
  | cons kp rest ih =>
    intro q hq hh hnd hdisj
    have hnewk : dmem q.pq_index kp.1 = false := by
      rcases hb : dmem q.pq_index kp.1 with _ | _
      · rfl
      · exfalso
        refine hdisj kp.1 (by simp) ?_
        exact (hq.mem_iff kp.1).mp hb
    have hstep : applyInsert q kp = insertCore q kp.1 kp.2 := by
      unfold applyInsert insert
      rw [hnewk]
      rfl
    have hq1 : InvP (insertCore q kp.1 kp.2) := insertCore_InvP q _ _ hq hnewk
    have hh1 : heapProp (insertCore q kp.1 kp.2).pq := insertCore_heapProp q _ _ hh
    have hpairs1 := insertCore_pairs q kp.1 kp.2
    rw [List.map_cons, List.nodup_cons] at hnd
    have hkeysC : List.Perm ((insertCore q kp.1 kp.2).pq.map Entry.key)
        (kp.1 :: q.pq.map Entry.key) := by
      rw [keys_eq_pairs_fst, keys_eq_pairs_fst]
      exact hpairs1.map Prod.fst
    have hkeys1 : ∀ x ∈ rest.map Prod.fst,
        x ∉ (insertCore q kp.1 kp.2).pq.map Entry.key := by
      intro x hx hmem
      have hx1 := hkeysC.mem_iff.mp hmem
      rcases List.mem_cons.mp hx1 with he | hm
      · exact hnd.1 (he ▸ hx)
      · exact hdisj x (List.mem_cons_of_mem _ hx) hm
    rw [List.foldl_cons, hstep]
    obtain ⟨hI, hH, hP⟩ := ih (insertCore q kp.1 kp.2) hq1 hh1 hnd.2 hkeys1
    refine ⟨hI, hH, ?_⟩
    refine List.Perm.trans hP ?_
    refine List.Perm.trans (hpairs1.append_right rest) ?_
    show List.Perm (kp :: (pairs q ++ rest)) (pairs q ++ kp :: rest)
    exact List.perm_middle.symm

theorem insert_ok_inv {q q' : IHQ K P} {k : K} {p : P}
    (h : insert q k p = .ok q') :
    dmem q.pq_index k = false ∧ q' = insertCore q k p := by
  unfold insert at h
  rcases hb : dmem q.pq_index k with _ | _
  · rw [hb] at h
    simp only [Bool.false_eq_true, if_false] at h
    refine ⟨rfl, ?_⟩
    injection h with h
    exact h.symm
  · rw [hb] at h
    simp at h

theorem update_ok_inv {q q' : IHQ K P} {k : K} {p : P}
    (h : update q k p = .ok q') :
    ∃ i, dget q.pq_index k = some i ∧ q' = updateCore q i p := by
  unfold update at h
  rcases hg : dget q.pq_index k with _ | i
  · rw [hg] at h
    simp at h
  · rw [hg] at h
    refine ⟨i, rfl, ?_⟩
    injection h with h
    exact h.symm

theorem remove_ok_inv {q q' : IHQ K P} {k : K}
    (h : remove q k = .ok q') :
    ∃ i, dget q.pq_index k = some i ∧ q' = removeCore q k i := by
  unfold remove at h
  rcases hg : dget q.pq_index k with _ | i
  · rw [hg] at h
    simp at h
  · rw [hg] at h
    refine ⟨i, rfl, ?_⟩
    injection h with h
    exact h.symm

theorem empty_InvP : InvP (IHQ.empty : IHQ K P) := by
  refine ⟨by simp [IHQ.empty], by simp [IHQ.empty], rfl, ?_⟩
  intro i hi
  simp [IHQ.empty] at hi

theorem empty_heapProp : heapProp (IHQ.empty : IHQ K P).pq := by
  intro j hj
  simp [IHQ.empty] at hj

/-- Every reachable state is consistent and satisfies the heap property. -/
theorem Reachable.wellFormed {q : IHQ K P} (h : Reachable q) :
    InvP q ∧ heapProp q.pq := by
  induction h with
  | empty => exact ⟨empty_InvP, empty_heapProp⟩
  | ofMap m hnd => exact ⟨ofMapping_InvP m hnd, ofMapping_heapProp m⟩
  | insertStep _ hok ih =>
    obtain ⟨hnewk, rfl⟩ := insert_ok_inv hok
    exact ⟨insertCore_InvP _ _ _ ih.1 hnewk, insertCore_heapProp _ _ _ ih.2⟩
  | updateStep _ hok ih =>
    obtain ⟨i, hg, rfl⟩ := update_ok_inv hok
    have hi := (ih.1.dget_some hg).1
    exact ⟨updateCore_InvP _ _ _ ih.1 hi, updateCore_heapProp _ _ _ ih.2 hi⟩
  | @upsertStep q0 k p _ ih =>
    show InvP (upsert q0 k p) ∧ heapProp (upsert q0 k p).pq
    unfold upsert
    rcases hg : dget q0.pq_index k with _ | i
    · have hnewk : dmem q0.pq_index k = false := by
        unfold dmem
        rw [hg]
        rfl
      exact ⟨insertCore_InvP _ _ _ ih.1 hnewk, insertCore_heapProp _ _ _ ih.2⟩
    · have hi := (ih.1.dget_some hg).1
      exact ⟨updateCore_InvP _ _ _ ih.1 hi, updateCore_heapProp _ _ _ ih.2 hi⟩
  | removeStep _ hok ih =>
    obtain ⟨i, hg, rfl⟩ := remove_ok_inv hok
    obtain ⟨hi, hkey⟩ := ih.1.dget_some hg
    exact ⟨removeCore_InvP _ _ _ ih.1 hi hkey, removeCore_heapProp _ _ _ ih.2 hi⟩
  | popStep _ hok ih =>
    exact ⟨pop_InvP _ ih.1 hok, pop_heapProp _ ih.2 hok⟩

/-! ### Remaining generic helpers for the claims -/

theorem map_eraseIdx {α β : Type} (f : α → β) :
    ∀ (l : List α) (i : Nat), (l.eraseIdx i).map f = (l.map f).eraseIdx i := by
  intro l
  induction l with
  | nil => intro i; cases i <;> rfl
  | cons hd tl ih =>
    intro i
    cases i with
    | zero => rfl
    | succ n =>
      show (hd :: tl.eraseIdx n).map f = (f hd :: tl.map f).eraseIdx (n + 1)
      rw [List.map_cons, List.eraseIdx_cons_succ, ih]

theorem not_mem_eraseIdx_self {α : Type} [Inhabited α] {l : List α}
    (hn : l.Nodup) {i : Nat} (hi : i < l.length) :
    l.getD i default ∉ l.eraseIdx i := by
  have hperm := perm_cons_eraseIdx l i hi
  have hn2 : (l.getD i default :: l.eraseIdx i).Nodup := hperm.nodup_iff.mp hn
  rw [List.nodup_cons] at hn2
  exact hn2.1

theorem pairs_fst_unique {L : List (K × P)} (hn : (L.map Prod.fst).Nodup)
    {k : K} {a b : P} (ha : (k, a) ∈ L) (hb : (k, b) ∈ L) : a = b := by
  induction L with
  | nil => simp at ha
  | cons hd tl ih =>
    rw [List.map_cons, List.nodup_cons] at hn
    rcases List.mem_cons.mp ha with ha1 | ha1 <;>
      rcases List.mem_cons.mp hb with hb1 | hb1
    · exact congrArg Prod.snd (ha1.trans hb1.symm)
    · exfalso
      have hm : k ∈ tl.map Prod.fst := by
        have hmm := List.mem_map_of_mem Prod.fst hb1
        simpa using hmm
      have hk : hd.1 = k := (congrArg Prod.fst ha1).symm
      exact hn.1 (by rw [hk]; exact hm)
    · exfalso
      have hm : k ∈ tl.map Prod.fst := by
        have hmm := List.mem_map_of_mem Prod.fst ha1
        simpa using hmm
      have hk : hd.1 = k := (congrArg Prod.fst hb1).symm
      exact hn.1 (by rw [hk]; exact hm)
    · exact ih hn.2 ha1 hb1

theorem heapProp_iff_heapPropC (pq : List (Entry K P)) :
    heapProp pq ↔ heapPropC pq := by
  constructor
  · intro h i
    constructor
    · intro hl
      have hc := h (2 * i + 1) hl (by omega)
      rwa [show (2 * i + 1 - 1) / 2 = i by omega] at hc
    · intro hr
      have hc := h (2 * i + 2) hr (by omega)
      rwa [show (2 * i + 2 - 1) / 2 = i by omega] at hc
  · intro h j hj h0
    have hj2 : j = 2 * ((j - 1) / 2) + 1 ∨ j = 2 * ((j - 1) / 2) + 2 := by omega
    rcases hj2 with he | he
    · have hc := (h ((j - 1) / 2)).1 (by omega)
      rwa [← he] at hc
    · have hc := (h ((j - 1) / 2)).2 (by omega)
      rwa [← he] at hc

/-- Two consistent states agreeing on which pairs carry key `k` agree on
`get k`. -/
theorem get_congr {q q' : IHQ K P} (hq : InvP q) (hq' : InvP q')
    (k : K) (hiff : ∀ p, ((k, p) ∈ pairs q' ↔ (k, p) ∈ pairs q)) :
    get q' k = get q k := by
  by_cases hc : contains q k = true
  · obtain ⟨p, hp⟩ := (contains_iff_pairs hq k).mp hc
    rw [get_eq_of_mem_pairs hq hp, get_eq_of_mem_pairs hq' ((hiff p).mpr hp)]
  · have hc' : contains q' k = false := by
      rcases hb : contains q' k with _ | _
      · rfl
      · exfalso
        obtain ⟨p, hp⟩ := (contains_iff_pairs hq' k).mp hb
        exact hc ((contains_iff_pairs hq k).mpr ⟨p, (hiff p).mp hp⟩)
    rw [(get_err_iff q' k).mpr hc',
      (get_err_iff q k).mpr (Bool.not_eq_true _ ▸ (by simpa using hc))]

theorem get_ok_inv {q : IHQ K P} {k : K} {p : P} (h : get q k = .ok p) :
    ∃ i, dget q.pq_index k = some i ∧ pri q.pq i = p := by
  unfold get at h
  rcases hg : dget q.pq_index k with _ | i
  · rw [hg] at h
    simp at h
  · rw [hg] at h
    refine ⟨i, rfl, ?_⟩
    injection h

/-! ## The claims -/

/-- C1: Heap invariant at rest: after every public mutating operation
(insert, update, upsert, remove, pop, subscript set/delete — the mapping
surface coincides with upsert/remove — and bulk construction) returns, the
internal sequence satisfies the binary min-heap property: for every index `i`
whose children `2i+1` and/or `2i+2` exist, the priority at `i` is at most the
priority at each existing child.  (Bulk construction's stdlib heapify is
modelled from the spec as bottom-up sink-down.) -/
theorem claim_C1_heap_invariant (q : IHQ K P) (h : Reachable q) :
    heapPropC q.pq :=
  (heapProp_iff_heapPropC q.pq).mp h.wellFormed.2

theorem claim_C1_witness :
    heapPropC (K := Nat) (P := Int) (upsert IHQ.empty 0 5).pq :=
  claim_C1_heap_invariant _ (Reachable.upsertStep 0 5 Reachable.empty)

/-- C2: Position-index consistency: at every state reached by public
operations, `size` equals the entry count of the position index, which equals
the entry count of the sequence; every key in the position index maps to a
slot whose stored key equals it, and conversely every slot's key is indexed
at that slot (a bijection between the index's keyset and the sequence's
keys). -/
theorem claim_C2_index_consistency (q : IHQ K P) (h : Reachable q) :
    size q = q.pq_index.length ∧ size q = q.pq.length ∧
    (∀ k i, dget q.pq_index k = some i →
      i < q.pq.length ∧ (ent q.pq i).key = k) ∧
    (∀ i, i < q.pq.length → dget q.pq_index (ent q.pq i).key = some i) := by
  obtain ⟨hq, -⟩ := h.wellFormed
  exact ⟨hq.2.2.1.symm, rfl, fun k i hg => hq.dget_some hg, hq.2.2.2⟩

theorem claim_C2_witness :
    size (K := Nat) (P := Int) (upsert IHQ.empty 0 5)
        = (upsert (K := Nat) (P := Int) IHQ.empty 0 5).pq_index.length ∧
      size (K := Nat) (P := Int) (upsert IHQ.empty 0 5)
        = (upsert (K := Nat) (P := Int) IHQ.empty 0 5).pq.length ∧
      (∀ k i, dget (upsert (K := Nat) (P := Int) IHQ.empty 0 5).pq_index k = some i →
        i < (upsert (K := Nat) (P := Int) IHQ.empty 0 5).pq.length ∧
        (ent (upsert (K := Nat) (P := Int) IHQ.empty 0 5).pq i).key = k) ∧
      (∀ i, i < (upsert (K := Nat) (P := Int) IHQ.empty 0 5).pq.length →
        dget (upsert (K := Nat) (P := Int) IHQ.empty 0 5).pq_index
          (ent (upsert (K := Nat) (P := Int) IHQ.empty 0 5).pq i).key = some i) :=
  claim_C2_index_consistency _ (Reachable.upsertStep 0 5 Reachable.empty)

/-- C9: Idempotent update: re-submitting a key's current priority via
`update` leaves the state exactly unchanged (a fortiori the heap order is
stable and the size unchanged): the new priority is written over itself and
the not-strictly-smaller branch runs `_sink_down`, which immediately exits on
an intact heap. -/
theorem claim_C9_idempotent_update (q : IHQ K P) (h : Reachable q)
    (k : K) (p : P) (hget : get q k = .ok p) :
    update q k p = .ok q ∧ size (upsert q k p) = size q := by
  obtain ⟨hq, hh⟩ := h.wellFormed
  obtain ⟨i, hg, hp⟩ := get_ok_inv hget
  have hcore : updateCore q i p = q := by
    have hentry : (⟨(ent q.pq i).key, p⟩ : Entry K P) = ent q.pq i := by
      rw [← hp]
      show (⟨(ent q.pq i).key, (ent q.pq i).priority⟩ : Entry K P) = ent q.pq i
      rfl
    have hge : ¬ p < pri q.pq i := by
      rw [← hp]
      exact lt_irrefl _
    rw [updateCore_def_ge q i p hge, hentry, set_ent_self,
      sinkGo_of_heap _ _ _ _ hh]
  have hupd : update q k p = .ok q := by
    unfold update
    rw [hg]
    show Except.ok (updateCore q i p) = Except.ok q
    rw [hcore]
  refine ⟨hupd, ?_⟩
  unfold upsert
  rw [hg]
  show size (updateCore q i p) = size q
  rw [hcore]

theorem claim_C9_witness :
    get (K := Nat) (P := Int) (upsert IHQ.empty 0 5) 0 = .ok 5 ∧
      update (K := Nat) (P := Int) (upsert IHQ.empty 0 5) 0 5
          = .ok (upsert IHQ.empty 0 5) ∧
      size (K := Nat) (P := Int)
          (upsert (upsert IHQ.empty 0 5) 0 5) = size (upsert IHQ.empty 0 5) := by
  have hget : get (K := Nat) (P := Int) (upsert IHQ.empty 0 5) 0 = .ok 5 := rfl
  have hc := claim_C9_idempotent_update (upsert IHQ.empty 0 5)
    (Reachable.upsertStep 0 5 Reachable.empty) 0 5 hget
  exact ⟨hget, hc.1, hc.2⟩

/-- C10: Upsert totality: `upsert` (identically `__setitem__`) never fails;
it behaves as `insert` when the key is absent and as `update` when present;
afterwards the key is contained with the new priority, and the size grows by
exactly 1 when the key was absent and is unchanged when it was present. -/
theorem claim_C10_upsert_total (q : IHQ K P) (h : Reachable q) (k : K) (p : P) :
    (contains q k = false →
      insert q k p = .ok (upsert q k p) ∧ size (upsert q k p) = size q + 1) ∧
    (contains q k = true →
      update q k p = .ok (upsert q k p) ∧ size (upsert q k p) = size q) ∧
    contains (upsert q k p) k = true ∧
    get (upsert q k p) k = .ok p := by
  obtain ⟨hq, hh⟩ := h.wellFormed
  rcases hg : dget q.pq_index k with _ | i
  · -- the key is absent
    have hmemf : dmem q.pq_index k = false := by
      unfold dmem
      rw [hg]
      rfl
    have hup : upsert q k p = insertCore q k p := by
      unfold upsert
      rw [hg]
    have hq' : InvP (insertCore q k p) := insertCore_InvP q k p hq hmemf
    have hpair : (k, p) ∈ pairs (insertCore q k p) :=
      (insertCore_pairs q k p).mem_iff.mpr (List.mem_cons_self _ _)
    refine ⟨fun _ => ⟨?_, ?_⟩, fun hc => ?_, ?_, ?_⟩
    · unfold insert
      rw [hmemf, hup]
      rfl
    · rw [hup, size_pairs, size_pairs, (insertCore_pairs q k p).length_eq]
      rfl
    · rw [show contains q k = dmem q.pq_index k from rfl, hmemf] at hc
      cases hc
    · rw [hup]
      exact (contains_iff_pairs hq' k).mpr ⟨p, hpair⟩
    · rw [hup]
      exact get_eq_of_mem_pairs hq' hpair
  · -- the key is present at slot i
    obtain ⟨hi, hkey⟩ := hq.dget_some hg
    have hup : upsert q k p = updateCore q i p := by
      unfold upsert
      rw [hg]
    have hq' : InvP (updateCore q i p) := updateCore_InvP q i p hq hi
    have hpair : (k, p) ∈ pairs (updateCore q i p) := by
      refine (updateCore_pairs q i p hi).mem_iff.mpr ?_
      rw [hkey]
      exact List.mem_cons_self _ _
    refine ⟨fun hc => ?_, fun _ => ⟨?_, ?_⟩, ?_, ?_⟩
    · rw [show contains q k = dmem q.pq_index k from rfl] at hc
      unfold dmem at hc
      rw [hg] at hc
      cases hc
    · unfold update
      rw [hg, hup]
    · rw [hup, size_pairs, size_pairs, (updateCore_pairs q i p hi).length_eq]
      show ((((ent q.pq i).key, p)) :: (pairs q).eraseIdx i).length = (pairs q).length
      have hip : i < (pairs q).length := by
        unfold pairs
        rw [List.length_map]
        exact hi
      rw [List.length_cons, List.length_eraseIdx_add_one hip]
    · rw [hup]
      exact (contains_iff_pairs hq' k).mpr ⟨p, hpair⟩
    · rw [hup]
      exact get_eq_of_mem_pairs hq' hpair

theorem claim_C10_witness :
    contains (K := Nat) (P := Int) IHQ.empty 0 = false ∧
      insert (K := Nat) (P := Int) IHQ.empty 0 5 = .ok (upsert IHQ.empty 0 5) ∧
      size (K := Nat) (P := Int) (upsert IHQ.empty 0 5) = size (K := Nat) (P := Int) IHQ.empty + 1 ∧
      contains (K := Nat) (P := Int) (upsert IHQ.empty 0 5) 0 = true ∧
      get (K := Nat) (P := Int) (upsert IHQ.empty 0 5) 0 = .ok 5 := by
  have hc := claim_C10_upsert_total (K := Nat) (P := Int) IHQ.empty
    Reachable.empty 0 5
  have hf : contains (K := Nat) (P := Int) IHQ.empty 0 = false := rfl
  obtain ⟨h1, h2⟩ := hc.1 hf
  exact ⟨hf, h1, h2, hc.2.2.1, hc.2.2.2⟩

/-- C3: Pop-order law / round trip: draining any reachable queue by repeated
`pop` yields its stored pairs exactly (the multiset inserted minus those
removed), with priorities in non-decreasing order; in particular inserting
`n` distinct-key pairs into an empty queue and popping `n` times returns
exactly those pairs (each key once, any key among equal priorities) sorted by
priority. -/
theorem claim_C3_pop_order :
    (∀ q : IHQ K P, Reachable q →
      List.Sorted (· ≤ ·) ((popAll q).map Prod.snd) ∧
      List.Perm (popAll q) (pairs q)) ∧
    (∀ l : List (K × P), (l.map Prod.fst).Nodup →
      List.Perm (popAll (insertAll l)) l ∧
      List.Sorted (· ≤ ·) ((popAll (insertAll l)).map Prod.snd)) := by
  constructor
  · intro q h
    obtain ⟨hq, hh⟩ := h.wellFormed
    obtain ⟨hp, hs⟩ := popAll_spec q hq hh
    exact ⟨hs, hp⟩
  · intro l hnd
    obtain ⟨hI, hH, hP⟩ := foldl_applyInsert_spec l IHQ.empty empty_InvP
      empty_heapProp hnd (by intro x _ hx; simp [IHQ.empty] at hx)
    have hP' : List.Perm (pairs (List.foldl applyInsert IHQ.empty l)) l := by
      have hpe : pairs (IHQ.empty : IHQ K P) = [] := rfl
      rwa [hpe, List.nil_append] at hP
    obtain ⟨hp, hs⟩ := popAll_spec (insertAll l) hI hH
    exact ⟨hp.trans hP', hs⟩

theorem claim_C3_witness :
    List.Sorted (· ≤ ·)
        ((popAll (K := Nat) (P := Int) (upsert IHQ.empty 0 5)).map Prod.snd) ∧
      List.Perm (popAll (K := Nat) (P := Int) (insertAll [(0, 5), (1, 3)]))
        [(0, 5), (1, 3)] := by
  refine ⟨(claim_C3_pop_order.1 _ (Reachable.upsertStep 0 5 Reachable.empty)).1, ?_⟩
  exact (claim_C3_pop_order.2 [(0, 5), (1, 3)] (by decide)).1

/-- C5: Raises-iff plus failure atomicity: `peek`/`pop` fail, and fail with
the empty-queue error, exactly when the size is 0; `get`/`update`/`remove`
fail with the key-not-found error exactly when the key is absent; `insert`
fails with the duplicate-key error exactly when the key is present.  Every
failing call returns only the error — the embedded operations raise before
constructing any new state, as the source checks its guard before mutating —
and in the concrete scenario a second insert of the same key fails while the
original priority remains retrievable. -/
theorem claim_C5_errors (q : IHQ K P) (k : K) (p : P) :
    (peek q = .error .emptyQueue ↔ size q = 0) ∧
    (∀ e, peek q = .error e → e = .emptyQueue) ∧
    (pop q = .error .emptyQueue ↔ size q = 0) ∧
    (∀ e, pop q = .error e → e = .emptyQueue) ∧
    (get q k = .error .keyNotFound ↔ contains q k = false) ∧
    (∀ e, get q k = .error e → e = .keyNotFound) ∧
    (update q k p = .error .keyNotFound ↔ contains q k = false) ∧
    (∀ e, update q k p = .error e → e = .keyNotFound) ∧
    (remove q k = .error .keyNotFound ↔ contains q k = false) ∧
    (∀ e, remove q k = .error e → e = .keyNotFound) ∧
    (insert q k p = .error .duplicateKey ↔ contains q k = true) ∧
    (∀ e, insert q k p = .error e → e = .duplicateKey) ∧
    (∀ q1, insert IHQ.empty k p = .ok q1 →
      (∀ p2, insert q1 k p2 = .error .duplicateKey) ∧ get q1 k = .ok p) := by
  have hsize : size q = 0 ↔ q.pq.isEmpty = true := by
    unfold size
    rw [List.isEmpty_iff, List.length_eq_zero]
  have hcont : contains q k = false ↔ dget q.pq_index k = none := by
    unfold contains dmem
    cases dget q.pq_index k <;> simp
  refine ⟨?_, ?_, ?_, ?_, ?_, ?_, ?_, ?_, ?_, ?_, ?_, ?_, ?_⟩
  · unfold peek
    by_cases he : q.pq.isEmpty <;> simp [he, hsize]
  · intro e
    unfold peek
    by_cases he : q.pq.isEmpty <;> simp [he]
    intro h
    exact h.symm
  · unfold pop
    by_cases he : q.pq.isEmpty
    · simp [he, hsize]
    · rw [if_neg he]
      simp only []
      rw [hsize]
      by_cases h2 : q.pq.dropLast.isEmpty <;> simp [h2, he]
  · intro e
    unfold pop
    by_cases he : q.pq.isEmpty
    · rw [if_pos he]
      intro h
      injection h with h
      exact h.symm
    · rw [if_neg he]
      simp only []
      by_cases h2 : q.pq.dropLast.isEmpty <;> simp [h2]
  · rw [get_err_iff]
  · intro e
    unfold get
    cases dget q.pq_index k <;> simp
    intro h
    exact h.symm
  · unfold update
    rw [hcont]
    cases dget q.pq_index k <;> simp
  · intro e
    unfold update
    cases dget q.pq_index k <;> simp
    intro h
    exact h.symm
  · unfold remove
    rw [hcont]
    cases dget q.pq_index k <;> simp
  · intro e
    unfold remove
    cases dget q.pq_index k <;> simp
    intro h
    exact h.symm
  · unfold insert contains
    by_cases hb : dmem q.pq_index k <;> simp [hb]
  · intro e
    unfold insert
    by_cases hb : dmem q.pq_index k <;> simp [hb]
    intro h
    exact h.symm
  · intro q1 hok
    obtain ⟨hmemf, rfl⟩ := insert_ok_inv hok
    have hq1 : InvP (insertCore IHQ.empty k p) :=
      insertCore_InvP IHQ.empty k p empty_InvP hmemf
    have hpair : (k, p) ∈ pairs (insertCore IHQ.empty k p) :=
      (insertCore_pairs IHQ.empty k p).mem_iff.mpr (List.mem_cons_self _ _)
    refine ⟨?_, get_eq_of_mem_pairs hq1 hpair⟩
    intro p2
    have hc : contains (insertCore IHQ.empty k p) k = true :=
      (contains_iff_pairs hq1 k).mpr ⟨p, hpair⟩
    unfold insert
    rw [show dmem (insertCore IHQ.empty k p).pq_index k = true from hc]
    rfl

theorem claim_C5_witness :
    (insert (K := Nat) (P := Int) IHQ.empty 0 1 = .ok (insertCore IHQ.empty 0 1)) ∧
      (insert (K := Nat) (P := Int) (insertCore IHQ.empty 0 1) 0 2
        = .error .duplicateKey) ∧
      get (K := Nat) (P := Int) (insertCore IHQ.empty 0 1) 0 = .ok 1 := by
  have hok : insert (K := Nat) (P := Int) IHQ.empty 0 1
      = .ok (insertCore IHQ.empty 0 1) := rfl
  have hc := (claim_C5_errors (K := Nat) (P := Int) IHQ.empty 0 1).2.2.2.2.2.2.2.2.2.2.2.2
    (insertCore IHQ.empty 0 1) hok
  exact ⟨hok, hc.1 2, hc.2⟩

/-- C7: Remove completeness and frame: after a successful `remove k` the key
is gone, the size has decreased by exactly 1, and every other key is still
present with an unchanged priority. -/
theorem claim_C7_remove_frame (q : IHQ K P) (h : Reachable q) (k : K)
    {q' : IHQ K P} (hok : remove q k = .ok q') :
    contains q' k = false ∧ size q' + 1 = size q ∧
    (∀ k', k' ≠ k → contains q' k' = contains q k' ∧ get q' k' = get q k') := by
  obtain ⟨hq, hh⟩ := h.wellFormed
  obtain ⟨i, hg, rfl⟩ := remove_ok_inv hok
  obtain ⟨hi, hkey⟩ := hq.dget_some hg
  have hq' := removeCore_InvP q k i hq hi hkey
  have hperm := removeCore_pairs q k i hi
  have hip : i < (pairs q).length := by
    unfold pairs
    rw [List.length_map]
    exact hi
  have hgetDi : (pairs q).getD i default = (k, (ent q.pq i).priority) := by
    have h1 := (pair_ent_eq_getD q.pq i).symm
    unfold pairs
    rw [h1, hkey]
  have hconsq := perm_cons_eraseIdx (pairs q) i hip
  have hmem_erase : ∀ pr, pr ∈ (pairs q).eraseIdx i → pr ∈ pairs q := by
    intro pr hpr
    exact hconsq.mem_iff.mpr (List.mem_cons_of_mem _ hpr)
  have hkabsent : ∀ p1, (k, p1) ∉ pairs (removeCore q k i) := by
    intro p1 hp1
    have hmem := hperm.mem_iff.mp hp1
    have hfst : k ∈ ((pairs q).eraseIdx i).map Prod.fst :=
      List.mem_map_of_mem Prod.fst hmem
    rw [map_eraseIdx, ← keys_eq_pairs_fst] at hfst
    have hkat : (q.pq.map Entry.key).getD i default = k := by
      rw [← key_ent_eq_getD, hkey]
    rw [← hkat] at hfst
    exact not_mem_eraseIdx_self hq.1 (by simpa using hi) hfst
  refine ⟨?_, ?_, ?_⟩
  · rcases hb : contains (removeCore q k i) k with _ | _
    · rfl
    · exfalso
      obtain ⟨p1, hp1⟩ := (contains_iff_pairs hq' k).mp hb
      exact hkabsent p1 hp1
  · rw [size_pairs, size_pairs, hperm.length_eq, List.length_eraseIdx_add_one hip]
  · intro k' hkne
    have hmi : ∀ p1, ((k', p1) ∈ pairs (removeCore q k i) ↔ (k', p1) ∈ pairs q) := by
      intro p1
      rw [hperm.mem_iff]
      constructor
      · exact hmem_erase _
      · intro hp1
        have hc := hconsq.mem_iff.mp hp1
        rcases List.mem_cons.mp hc with he | hm
        · exfalso
          rw [hgetDi] at he
          exact hkne (congrArg Prod.fst he)
        · exact hm
    refine ⟨?_, get_congr hq hq' k' hmi⟩
    rcases hb : contains q k' with _ | _
    · rcases hb' : contains (removeCore q k i) k' with _ | _
      · rfl
      · exfalso
        obtain ⟨p1, hp1⟩ := (contains_iff_pairs hq' k').mp hb'
        have hmem := (hmi p1).mp hp1
        have := (contains_iff_pairs hq k').mpr ⟨p1, hmem⟩
        rw [hb] at this
        cases this
    · obtain ⟨p1, hp1⟩ := (contains_iff_pairs hq k').mp hb
      exact (contains_iff_pairs hq' k').mpr ⟨p1, (hmi p1).mpr hp1⟩

theorem claim_C7_witness :
    remove (K := Nat) (P := Int) (upsert (upsert IHQ.empty 0 5) 1 3) 0
        = .ok (removeCore (upsert (upsert IHQ.empty 0 5) 1 3) 0 1) ∧
      contains (removeCore (K := Nat) (P := Int)
        (upsert (upsert IHQ.empty 0 5) 1 3) 0 1) 0 = false ∧
      size (removeCore (K := Nat) (P := Int)
          (upsert (upsert IHQ.empty 0 5) 1 3) 0 1) + 1
        = size (upsert (K := Nat) (P := Int) (upsert IHQ.empty 0 5) 1 3) := by
  have hok : remove (K := Nat) (P := Int) (upsert (upsert IHQ.empty 0 5) 1 3) 0
      = .ok (removeCore (upsert (upsert IHQ.empty 0 5) 1 3) 0 1) := rfl
  have hc := claim_C7_remove_frame (upsert (upsert IHQ.empty 0 5) 1 3)
    (Reachable.upsertStep 1 3 (Reachable.upsertStep 0 5 Reachable.empty)) 0 hok
  exact ⟨hok, hc.1, hc.2.1⟩

/-- C6: Update algorithm: for a present key, `update` writes the new priority
in place at the key's slot and then sifts up exactly when the new priority is
strictly smaller, otherwise sinks down; afterwards the key reads back the new
priority, the heap property holds, the size and all other keys' priorities
are unchanged.  Sink-down swaps with the strictly smaller of the existing
children — the left child when the two are equal — and is a no-op (stops)
when no child is strictly smaller. -/
theorem claim_C6_update_algorithm (q : IHQ K P) (h : Reachable q)
    (k : K) (p : P) :
    (∀ i, dget q.pq_index k = some i →
      update q k p = .ok (updateCore q i p) ∧
      (p < pri q.pq i → updateCore q i p =
        ⟨(siftUp (q.pq.set i ⟨(ent q.pq i).key, p⟩) q.pq_index i).1,
         (siftUp (q.pq.set i ⟨(ent q.pq i).key, p⟩) q.pq_index i).2⟩) ∧
      (¬ p < pri q.pq i → updateCore q i p =
        ⟨(sinkDown (q.pq.set i ⟨(ent q.pq i).key, p⟩) q.pq_index i).1,
         (sinkDown (q.pq.set i ⟨(ent q.pq i).key, p⟩) q.pq_index i).2⟩) ∧
      get (updateCore q i p) k = .ok p ∧
      heapPropC (updateCore q i p).pq ∧
      size (updateCore q i p) = size q ∧
      (∀ k', k' ≠ k → get (updateCore q i p) k' = get q k')) ∧
    (∀ (pq : List (Entry K P)) (i : Nat), 2 * i + 2 < pq.length →
      pri pq (2 * i + 1) = pri pq (2 * i + 2) →
      pri pq (2 * i + 1) < pri pq i →
      smallestChild pq i = 2 * i + 1) ∧
    (∀ (pq : List (Entry K P)) (i : Nat), smallestChild pq i ≠ i →
      i < smallestChild pq i ∧ smallestChild pq i < pq.length ∧
      pri pq (smallestChild pq i) < pri pq i ∧
      (2 * i + 1 < pq.length → pri pq (smallestChild pq i) ≤ pri pq (2 * i + 1)) ∧
      (2 * i + 2 < pq.length → pri pq (smallestChild pq i) ≤ pri pq (2 * i + 2))) ∧
    (∀ (pq : List (Entry K P)) (d : Dict K) (i : Nat), heapProp pq →
      sinkDown pq d i = (pq, d)) := by
  obtain ⟨hq, hh⟩ := h.wellFormed
  refine ⟨?_, ?_, ?_, ?_⟩
  · intro i hg
    obtain ⟨hi, hkey⟩ := hq.dget_some hg
    have hq' : InvP (updateCore q i p) := updateCore_InvP q i p hq hi
    have hperm := updateCore_pairs q i p hi
    have hpair : (k, p) ∈ pairs (updateCore q i p) := by
      refine hperm.mem_iff.mpr ?_
      rw [hkey]
      exact List.mem_cons_self _ _
    have hip : i < (pairs q).length := by
      unfold pairs
      rw [List.length_map]
      exact hi
    have hgetDi : (pairs q).getD i default = (k, (ent q.pq i).priority) := by
      have h1 := (pair_ent_eq_getD q.pq i).symm
      unfold pairs
      rw [h1, hkey]
    have hconsq := perm_cons_eraseIdx (pairs q) i hip
    have hsd : sinkDown (q.pq.set i ⟨(ent q.pq i).key, p⟩) q.pq_index i
        = sinkDownGo q.pq.length (q.pq.set i ⟨(ent q.pq i).key, p⟩)
            q.pq_index i := by
      unfold sinkDown
      rw [List.length_set]
    refine ⟨?_, fun hlt => updateCore_def_lt q i p hlt,
      fun hge => by rw [updateCore_def_ge q i p hge, hsd],
      get_eq_of_mem_pairs hq' hpair,
      (heapProp_iff_heapPropC _).mp (updateCore_heapProp q i p hh hi), ?_, ?_⟩
    · unfold update
      rw [hg]
    · rw [size_pairs, size_pairs, hperm.length_eq, List.length_cons,
        List.length_eraseIdx_add_one hip]
    · intro k' hkne
      have hmi : ∀ p1, ((k', p1) ∈ pairs (updateCore q i p) ↔ (k', p1) ∈ pairs q) := by
        intro p1
        rw [hperm.mem_iff]
        constructor
        · intro hp1
          rcases List.mem_cons.mp hp1 with he | hm
          · exfalso
            refine hkne ?_
            rw [← hkey]
            exact congrArg Prod.fst he
          · exact hconsq.mem_iff.mpr (List.mem_cons_of_mem _ hm)
        · intro hp1
          have hc := hconsq.mem_iff.mp hp1
          rcases List.mem_cons.mp hc with he | hm
          · exfalso
            rw [hgetDi] at he
            exact hkne (congrArg Prod.fst he)
          · exact List.mem_cons_of_mem _ hm
      exact get_congr hq hq' k' hmi
  · exact fun pq i => sc_tie pq i
  · intro pq i hne
    rcases sc_spec pq i with ⟨hsc, -, -⟩ | ⟨hchild, hsl, hslt, hbL, hbR⟩
    · exact absurd hsc hne
    · exact ⟨by omega, hsl, hslt, hbL, hbR⟩
  · exact fun pq d i hheap => sinkGo_of_heap _ _ _ _ hheap

theorem claim_C6_witness :
    update (K := Nat) (P := Int) (upsert (upsert IHQ.empty 0 5) 1 3) 0 7
        = .ok (updateCore (upsert (upsert IHQ.empty 0 5) 1 3) 1 7) ∧
      get (updateCore (K := Nat) (P := Int)
        (upsert (upsert IHQ.empty 0 5) 1 3) 1 7) 0 = .ok 7 := by
  have hc := (claim_C6_update_algorithm (K := Nat) (P := Int)
    (upsert (upsert IHQ.empty 0 5) 1 3)
    (Reachable.upsertStep 1 3 (Reachable.upsertStep 0 5 Reachable.empty))
    0 7).1 1 rfl
  exact ⟨hc.1, hc.2.2.2.1⟩

/-- C8: Bulk construction from a mapping: every pair of the mapping is
loaded (each key reads back its mapped priority, and the size is the
mapping's), `peek` returns an entry of the mapping with minimal priority, the
iteration order of the queue's keys reproduces the mapping's key iteration
order, and in the concrete scenario `{p: 3, q: 1, r: 2}` the constructed
queue peeks `(q, 1)`.  (The stdlib `heapq.heapify` is modelled from the spec
as bottom-up sink-down.) -/
theorem claim_C8_bulk_construction (m : List (K × P))
    (hnd : (m.map Prod.fst).Nodup) :
    (∀ kp ∈ m, get (ofMapping (K := K) (P := P) m) kp.1 = .ok kp.2) ∧
    size (ofMapping (K := K) (P := P) m) = m.length ∧
    (m ≠ [] → ∃ k p, peek (ofMapping (K := K) (P := P) m) = .ok (k, p) ∧
      (k, p) ∈ m ∧ ∀ kp ∈ m, p ≤ kp.2) ∧
    (ofMapping (K := K) (P := P) m).pq_index.map Prod.fst = m.map Prod.fst ∧
    peek (ofMapping ([(10, (3 : Int)), (11, 1), (12, 2)] : List (Nat × Int)))
      = .ok (11, 1) := by
  have hq := ofMapping_InvP m hnd
  have hh := ofMapping_heapProp m
  have hpp := ofMapping_pairs_perm m
  refine ⟨?_, ?_, ?_, ofMapping_fst m, by rfl⟩
  · intro kp hkp
    exact get_eq_of_mem_pairs hq (hpp.mem_iff.mpr hkp)
  · rw [size_pairs, hpp.length_eq]
  · intro hne
    have hlen : (ofMapping (K := K) (P := P) m).pq.length = m.length := by
      have h2 := hpp.length_eq
      unfold pairs at h2
      rw [List.length_map] at h2
      exact h2
    have hml : 0 < m.length := List.length_pos.mpr hne
    have hpqne : ¬ (ofMapping (K := K) (P := P) m).pq.isEmpty = true := by
      rw [List.isEmpty_iff, ← List.length_eq_zero, hlen]
      omega
    refine ⟨(ent (ofMapping (K := K) (P := P) m).pq 0).key,
      (ent (ofMapping (K := K) (P := P) m).pq 0).priority, ?_, ?_, ?_⟩
    · unfold peek
      rw [if_neg hpqne]
    · refine hpp.mem_iff.mp ?_
      unfold pairs
      refine List.mem_map.mpr ⟨ent (ofMapping (K := K) (P := P) m).pq 0, ?_, rfl⟩
      exact getD_mem (by omega)
    · intro kp hkp
      obtain ⟨i, hi, hpri⟩ := mem_pairs_pri (hpp.mem_iff.mpr hkp)
      rw [← hpri]
      exact heapProp_root_le hh i hi

theorem claim_C8_witness :
    get (ofMapping ([(10, (3 : Int)), (11, 1), (12, 2)] : List (Nat × Int))) 11
        = .ok 1 ∧
      (ofMapping ([(10, (3 : Int)), (11, 1), (12, 2)] :
        List (Nat × Int))).pq_index.map Prod.fst = [10, 11, 12] := by
  have hc := claim_C8_bulk_construction
    ([(10, (3 : Int)), (11, 1), (12, 2)] : List (Nat × Int)) (by decide)
  refine ⟨hc.1 (11, 1) (by decide), ?_⟩
  rw [hc.2.2.2.1]
  rfl

theorem scanIdx_none_iff (l : List (K × P)) (k : K) :
    scanIdx l k = none ↔ k ∉ l.map Prod.fst := by
  induction l with
  | nil => simp [scanIdx]
  | cons kp rest ih =>
    by_cases h : kp.1 = k
    · simp [scanIdx, h]
    · rw [show scanIdx (kp :: rest) k = (scanIdx rest k).map (· + 1) from by
        simp [scanIdx, h]]
      rw [List.map_cons, List.mem_cons]
      cases hsc : scanIdx rest k with
      | none =>
        rw [hsc] at ih
        simp only [Option.map_none']
        constructor
        · rintro - (he | hm)
          · exact h he.symm
          · exact (ih.mp rfl) hm
        · intro _
          trivial
      | some j =>
        rw [hsc] at ih
        simp only [Option.map_some']
        constructor
        · intro hco
          cases hco
        · intro hno
          exfalso
          refine hno (Or.inr ?_)
          by_contra hmm
          exact absurd (ih.mpr hmm) (by simp)

theorem scanIdx_some_spec (l : List (K × P)) (k : K) :
    ∀ j, scanIdx l k = some j →
      j < l.length ∧ (l.getD j default).1 = k := by
  induction l with
  | nil => intro j hj; cases hj
  | cons kp rest ih =>
    intro j hj
    by_cases h : kp.1 = k
    · rw [show scanIdx (kp :: rest) k = some 0 from by simp [scanIdx, h]] at hj
      injection hj with hj
      subst hj
      exact ⟨by simp, h⟩
    · rw [show scanIdx (kp :: rest) k = (scanIdx rest k).map (· + 1) from by
        simp [scanIdx, h]] at hj
      cases hsc : scanIdx rest k with
      | none => rw [hsc] at hj; cases hj
      | some j0 =>
        rw [hsc] at hj
        injection hj with hj
        subst hj
        obtain ⟨h1, h2⟩ := ih j0 hsc
        exact ⟨by simpa using h1, h2⟩

theorem minScan_none_iff (l : List (K × P)) :
    minScan l = none ↔ l = [] := by
  cases l with
  | nil => simp [minScan]
  | cons kp rest =>
    simp only [minScan]
    cases minScan rest with
    | none => simp
    | some jp =>
      by_cases h : jp.2 < kp.2 <;> simp [h]

theorem minScan_some_spec (l : List (K × P)) :
    ∀ j p, minScan l = some (j, p) →
      j < l.length ∧ (l.getD j default).2 = p ∧ ∀ kp ∈ l, p ≤ kp.2 := by
  induction l with
  | nil => intro j p hj; cases hj
  | cons kp rest ih =>
    intro j p hj
    cases hsc : minScan rest with
    | none =>
      have hrest : rest = [] := (minScan_none_iff rest).mp hsc
      rw [show minScan (kp :: rest) = some (0, kp.2) from by
        simp [minScan, hsc]] at hj
      injection hj with hj
      rw [Prod.mk.injEq] at hj
      obtain ⟨rfl, rfl⟩ := hj
      subst hrest
      refine ⟨by simp, rfl, ?_⟩
      intro kp2 hkp2
      rcases List.mem_cons.mp hkp2 with he | hm
      · rw [he]
      · simp at hm
    | some jp =>
      obtain ⟨j0, p0⟩ := jp
      obtain ⟨hl, hg, hb⟩ := ih j0 p0 hsc
      by_cases hlt : p0 < kp.2
      · rw [show minScan (kp :: rest) = some (j0 + 1, p0) from by
          simp [minScan, hsc, hlt]] at hj
        injection hj with hj
        rw [Prod.mk.injEq] at hj
        obtain ⟨rfl, rfl⟩ := hj
        refine ⟨by simpa using hl, hg, ?_⟩
        intro kp2 hkp2
        rcases List.mem_cons.mp hkp2 with he | hm
        · rw [he]
          exact le_of_lt hlt
        · exact hb kp2 hm
      · rw [show minScan (kp :: rest) = some (0, kp.2) from by
          simp [minScan, hsc, hlt]] at hj
        injection hj with hj
        rw [Prod.mk.injEq] at hj
        obtain ⟨rfl, rfl⟩ := hj
        refine ⟨by simp, rfl, ?_⟩
        intro kp2 hkp2
        rcases List.mem_cons.mp hkp2 with he | hm
        · rw [he]
        · exact le_trans (le_of_not_lt hlt) (hb kp2 hm)

/-! ### Coupling the queue with the reference -/

theorem bool_eq_of_iff {a b : Bool} (h : a = true ↔ b = true) : a = b := by
  cases a <;> cases b <;> simp_all

theorem mem_fst_iff_exists {L : List (K × P)} (k : K) :
    k ∈ L.map Prod.fst ↔ ∃ p, (k, p) ∈ L := by
  rw [List.mem_map]
  constructor
  · rintro ⟨kp, hm, hk⟩
    refine ⟨kp.2, ?_⟩
    rw [show (k, kp.2) = kp from by rw [← hk]]
    exact hm
  · rintro ⟨p, hm⟩
    exact ⟨(k, p), hm, rfl⟩

theorem ncontains_iff (n : NaiveRef K P) (k : K) :
    ncontains n k = true ↔ k ∈ n.entries.map Prod.fst := by
  unfold ncontains
  cases hsc : scanIdx n.entries k with
  | none =>
    simp only [Option.isSome_none, Bool.false_eq_true, false_iff]
    exact (scanIdx_none_iff _ _).mp hsc
  | some j =>
    simp only [Option.isSome_some, true_iff]
    by_contra hmm
    have := (scanIdx_none_iff n.entries k).mpr hmm
    rw [hsc] at this
    cases this

theorem nodup_fst_append {L : List (K × P)} {k : K} (p : P)
    (hn : (L.map Prod.fst).Nodup) (hk : k ∉ L.map Prod.fst) :
    ((L ++ [(k, p)]).map Prod.fst).Nodup := by
  rw [List.map_append]
  show ((L.map Prod.fst) ++ [k]).Nodup
  refine ((List.perm_append_singleton _ _).nodup_iff).mpr ?_
  rw [List.nodup_cons]
  exact ⟨hk, hn⟩

theorem fst_set_same_key {L : List (K × P)} {j : Nat} {k : K} (p : P)
    (hj : j < L.length) (hk : (L.getD j default).1 = k) :
    (L.set j (k, p)).map Prod.fst = L.map Prod.fst := by
  rw [List.map_set]
  show (L.map Prod.fst).set j k = _
  have hgd : (L.map Prod.fst).getD j default = k := by
    rw [List.getD_eq_getElem _ _ (by simpa using hj), List.getElem_map,
      ← List.getD_eq_getElem _ _ hj]
    exact hk
  rw [← hgd, set_getD_self]

theorem nodup_fst_eraseIdx {L : List (K × P)}
    (hn : (L.map Prod.fst).Nodup) (j : Nat) :
    ((L.eraseIdx j).map Prod.fst).Nodup := by
  rw [map_eraseIdx]
  exact hn.sublist (List.eraseIdx_sublist _ j)

/-- Erasing a slot holding key `k` on each side of a permutation of
key-distinct pair lists preserves the permutation. -/
theorem perm_eraseIdx_of_perm {L M : List (K × P)} {i j : Nat} {k : K}
    {a b : P} (hperm : List.Perm L M) (hn : (M.map Prod.fst).Nodup)
    (hi : i < L.length) (hj : j < M.length)
    (hLa : L.getD i default = (k, a)) (hMb : M.getD j default = (k, b)) :
    List.Perm (L.eraseIdx i) (M.eraseIdx j) := by
  have h1 := perm_cons_eraseIdx L i hi
  have h2 := perm_cons_eraseIdx M j hj
  rw [hLa] at h1
  rw [hMb] at h2
  have hab : a = b := by
    refine pairs_fst_unique hn (k := k) ?_ ?_
    · refine hperm.mem_iff.mp ?_
      rw [← hLa]
      exact getD_mem hi
    · rw [← hMb]
      exact getD_mem hj
  subst hab
  have hchain : List.Perm ((k, a) :: L.eraseIdx i) ((k, a) :: M.eraseIdx j) :=
    h1.symm.trans (hperm.trans h2)
  exact hchain.cons_inv

theorem Rel_empty : Rel (IHQ.empty : IHQ K P) NaiveRef.empty :=
  ⟨empty_InvP, empty_heapProp, List.nodup_nil, List.Perm.nil⟩

theorem Rel.contains_eq {q : IHQ K P} {n : NaiveRef K P} (h : Rel q n)
    (k : K) : contains q k = ncontains n k := by
  refine bool_eq_of_iff ?_
  rw [contains_iff_pairs h.1 k, ncontains_iff n k, mem_fst_iff_exists k]
  constructor
  · rintro ⟨p, hm⟩
    exact ⟨p, h.2.2.2.mem_iff.mp hm⟩
  · rintro ⟨p, hm⟩
    exact ⟨p, h.2.2.2.mem_iff.mpr hm⟩

theorem Rel.size_eq {q : IHQ K P} {n : NaiveRef K P} (h : Rel q n) :
    size q = n.entries.length := by
  rw [size_pairs]
  exact h.2.2.2.length_eq

theorem Rel.get_eq {q : IHQ K P} {n : NaiveRef K P} (h : Rel q n) (k : K) :
    get q k = nget n k := by
  cases hsc : scanIdx n.entries k with
  | none =>
    have hc : ncontains n k = false := by
      unfold ncontains
      rw [hsc]
      rfl
    have hcq : contains q k = false := by rw [h.contains_eq k, hc]
    rw [(get_err_iff q k).mpr hcq]
    unfold nget
    rw [hsc]
  | some j =>
    obtain ⟨hj, hk⟩ := scanIdx_some_spec n.entries k j hsc
    have hm2 : (k, (n.entries.getD j default).2) ∈ n.entries := by
      rw [show (k, (n.entries.getD j default).2) = n.entries.getD j default
        from by rw [← hk]]
      exact getD_mem hj
    have hmp : (k, (n.entries.getD j default).2) ∈ pairs q :=
      h.2.2.2.mem_iff.mpr hm2
    rw [get_eq_of_mem_pairs h.1 hmp]
    unfold nget
    rw [hsc]

/-- In a coupled pair, the reference's scanned minimum carries the queue's
root priority. -/
theorem Rel.min_pri_eq {q : IHQ K P} {n : NaiveRef K P} (h : Rel q n)
    {j : Nat} {p : P} (hsc : minScan n.entries = some (j, p)) :
    q.pq ≠ [] ∧ j < n.entries.length ∧
      (n.entries.getD j default).2 = p ∧ pri q.pq 0 = p := by
  obtain ⟨hj, hg2, hb⟩ := minScan_some_spec n.entries j p hsc
  have hne : n.entries ≠ [] := by
    intro hh
    rw [hh] at hj
    simp at hj
  have hpqne : q.pq ≠ [] := by
    intro hh
    have h0 : pairs q = [] := by
      unfold pairs
      rw [hh]
      rfl
    have hp := h.2.2.2
    rw [h0] at hp
    exact hne (List.Perm.eq_nil hp.symm)
  have hl0 : 0 < q.pq.length := List.length_pos.mpr hpqne
  have hrootmem : ((ent q.pq 0).key, (ent q.pq 0).priority) ∈ pairs q := by
    rw [pair_ent_eq_getD]
    refine getD_mem ?_
    show 0 < (q.pq.map fun e => (e.key, e.priority)).length
    rw [List.length_map]
    exact hl0
  have hrootn : ((ent q.pq 0).key, (ent q.pq 0).priority) ∈ n.entries :=
    h.2.2.2.mem_iff.mp hrootmem
  have hple : p ≤ (ent q.pq 0).priority := hb _ hrootn
  have hjmem : n.entries.getD j default ∈ pairs q :=
    h.2.2.2.mem_iff.mpr (getD_mem hj)
  obtain ⟨i, hi, hpi⟩ := mem_pairs_pri hjmem
  have hlep : pri q.pq 0 ≤ p := by
    have hroot := heapProp_root_le h.2.1 i hi
    rw [hpi, hg2] at hroot
    exact hroot
  exact ⟨hpqne, hj, hg2, le_antisymm hlep hple⟩

theorem Rel.peek_agree {q : IHQ K P} {n : NaiveRef K P} (h : Rel q n) :
    (peek q = .error .emptyQueue ∧ npeek n = .error .emptyQueue) ∨
      ∃ k1 k2 p, peek q = .ok (k1, p) ∧ npeek n = .ok (k2, p) := by
  cases hsc : minScan n.entries with
  | none =>
    have hen : n.entries = [] := (minScan_none_iff _).mp hsc
    have hq0 : pairs q = [] := by
      have hp := h.2.2.2
      rw [hen] at hp
      exact List.Perm.eq_nil hp
    have hpq : q.pq = [] := by
      unfold pairs at hq0
      exact List.map_eq_nil_iff.mp hq0
    refine Or.inl ⟨?_, ?_⟩
    · unfold peek
      rw [hpq]
      rfl
    · unfold npeek
      rw [hsc]
  | some jp =>
    obtain ⟨j, p⟩ := jp
    obtain ⟨hpqne, hj, hg2, hpeq⟩ := h.min_pri_eq hsc
    refine Or.inr ⟨(ent q.pq 0).key, (n.entries.getD j default).1, p, ?_, ?_⟩
    · unfold peek
      rw [if_neg (by simpa [List.isEmpty_iff] using hpqne)]
      rw [show (ent q.pq 0).priority = p from hpeq]
    · unfold npeek
      rw [hsc]
      show Except.ok (n.entries.getD j default) = _
      conv_rhs => rw [← hg2]

theorem Rel.pop_agree {q : IHQ K P} {n : NaiveRef K P} (h : Rel q n) :
    (pop q = .error .emptyQueue ∧ npop n = .error .emptyQueue) ∨
      ∃ k1 k2 p q2 n2, pop q = .ok ((k1, p), q2) ∧
        npop n = .ok ((k2, p), n2) := by
  cases hsc : minScan n.entries with
  | none =>
    have hen : n.entries = [] := (minScan_none_iff _).mp hsc
    have hq0 : pairs q = [] := by
      have hp := h.2.2.2
      rw [hen] at hp
      exact List.Perm.eq_nil hp
    have hpq : q.pq = [] := by
      unfold pairs at hq0
      exact List.map_eq_nil_iff.mp hq0
    refine Or.inl ⟨pop_def_empty q hpq, ?_⟩
    unfold npop
    rw [hsc]
  | some jp =>
    obtain ⟨j, p⟩ := jp
    obtain ⟨hpqne, hj, hg2, hpeq⟩ := h.min_pri_eq hsc
    obtain ⟨q2, hpop, -⟩ := pop_spec q hpqne
    refine Or.inr ⟨(ent q.pq 0).key, (n.entries.getD j default).1, p, q2,
      ⟨n.entries.eraseIdx j⟩, ?_, ?_⟩
    · rw [hpop, hpeq]
    · unfold npop
      rw [hsc]
      show Except.ok (n.entries.getD j default,
        NaiveRef.mk (n.entries.eraseIdx j)) = _
      conv_rhs => rw [← hg2]

/-! ### Step preservation of the coupling -/

theorem Rel.insert_step {q : IHQ K P} {n : NaiveRef K P} (h : Rel q n)
    (k : K) (p : P) :
    Rel (match insert q k p with | .ok q' => q' | .error _ => q)
      (match ninsert n k p with | .ok n' => n' | .error _ => n) := by
  cases hc : contains q k with
  | true =>
    have hcn : ncontains n k = true := by rw [← h.contains_eq k]; exact hc
    have h1 : insert q k p = .error .duplicateKey := by
      unfold insert
      rw [show dmem q.pq_index k = true from hc]
      rfl
    have h2 : ninsert n k p = .error .duplicateKey := by
      unfold ninsert
      rw [hcn]
      rfl
    rw [h1, h2]
    exact h
  | false =>
    have hcn : ncontains n k = false := by rw [← h.contains_eq k]; exact hc
    have hknm : k ∉ n.entries.map Prod.fst := by
      intro hmm
      have := (ncontains_iff n k).mpr hmm
      rw [hcn] at this
      cases this
    have h1 : insert q k p = .ok (insertCore q k p) := by
      unfold insert
      rw [show dmem q.pq_index k = false from hc]
      rfl
    have h2 : ninsert n k p = .ok ⟨n.entries ++ [(k, p)]⟩ := by
      unfold ninsert
      rw [hcn]
      rfl
    rw [h1, h2]
    show Rel (insertCore q k p) ⟨n.entries ++ [(k, p)]⟩
    refine ⟨insertCore_InvP q k p h.1 hc, insertCore_heapProp q k p h.2.1,
      nodup_fst_append p h.2.2.1 hknm, ?_⟩
    refine (insertCore_pairs q k p).trans ?_
    exact (List.Perm.cons (k, p) h.2.2.2).trans
      (List.perm_append_singleton _ _).symm

theorem Rel.update_step {q : IHQ K P} {n : NaiveRef K P} (h : Rel q n)
    (k : K) (p : P) :
    Rel (match update q k p with | .ok q' => q' | .error _ => q)
      (match nupdate n k p with | .ok n' => n' | .error _ => n) := by
  cases hc : contains q k with
  | false =>
    have hcn : ncontains n k = false := by rw [← h.contains_eq k]; exact hc
    have hg : dget q.pq_index k = none := by
      have hci : (dget q.pq_index k).isSome = false := hc
      cases hdg : dget q.pq_index k with
      | none => rfl
      | some i => rw [hdg] at hci; cases hci
    have hsc : scanIdx n.entries k = none := by
      have hci : (scanIdx n.entries k).isSome = false := hcn
      cases hdg : scanIdx n.entries k with
      | none => rfl
      | some j => rw [hdg] at hci; cases hci
    have h1 : update q k p = .error .keyNotFound := by
      unfold update
      rw [hg]
    have h2 : nupdate n k p = .error .keyNotFound := by
      unfold nupdate
      rw [hsc]
    rw [h1, h2]
    exact h
  | true =>
    have hcn : ncontains n k = true := by rw [← h.contains_eq k]; exact hc
    obtain ⟨i, hg⟩ := Option.isSome_iff_exists.mp (show
      (dget q.pq_index k).isSome = true from hc)
    obtain ⟨j, hsc⟩ := Option.isSome_iff_exists.mp (show
      (scanIdx n.entries k).isSome = true from hcn)
    obtain ⟨hi, hkey⟩ := h.1.dget_some hg
    obtain ⟨hj, hjk⟩ := scanIdx_some_spec n.entries k j hsc
    have h1 : update q k p = .ok (updateCore q i p) := by
      unfold update
      rw [hg]
    have h2 : nupdate n k p = .ok ⟨n.entries.set j (k, p)⟩ := by
      unfold nupdate
      rw [hsc]
    rw [h1, h2]
    show Rel (updateCore q i p) ⟨n.entries.set j (k, p)⟩
    refine ⟨updateCore_InvP q i p h.1 hi, updateCore_heapProp q i p h.2.1 hi,
      ?_, ?_⟩
    · show ((n.entries.set j (k, p)).map Prod.fst).Nodup
      rw [fst_set_same_key p hj hjk]
      exact h.2.2.1
    · refine (updateCore_pairs q i p hi).trans ?_
      have hLa : (pairs q).getD i default = (k, (ent q.pq i).priority) := by
        rw [show (pairs q).getD i default
            = ((ent q.pq i).key, (ent q.pq i).priority)
          from (pair_ent_eq_getD q.pq i).symm, hkey]
      have hMb : n.entries.getD j default
          = (k, (n.entries.getD j default).2) := by
        conv_lhs => rw [show n.entries.getD j default
          = ((n.entries.getD j default).1, (n.entries.getD j default).2)
          from rfl]
        rw [hjk]
      have hperm2 : List.Perm ((pairs q).eraseIdx i) (n.entries.eraseIdx j) :=
        perm_eraseIdx_of_perm h.2.2.2 h.2.2.1
          (by unfold pairs; rw [List.length_map]; exact hi) hj hLa hMb
      rw [hkey]
      refine (List.Perm.cons (k, p) hperm2).trans ?_
      exact (perm_set_eraseIdx n.entries j (k, p) hj).symm

theorem Rel.remove_step {q : IHQ K P} {n : NaiveRef K P} (h : Rel q n)
    (k : K) :
    Rel (match remove q k with | .ok q' => q' | .error _ => q)
      (match nremove n k with | .ok n' => n' | .error _ => n) := by
  cases hc : contains q k with
  | false =>
    have hcn : ncontains n k = false := by rw [← h.contains_eq k]; exact hc
    have hg : dget q.pq_index k = none := by
      have hci : (dget q.pq_index k).isSome = false := hc
      cases hdg : dget q.pq_index k with
      | none => rfl
      | some i => rw [hdg] at hci; cases hci
    have hsc : scanIdx n.entries k = none := by
      have hci : (scanIdx n.entries k).isSome = false := hcn
      cases hdg : scanIdx n.entries k with
      | none => rfl
      | some j => rw [hdg] at hci; cases hci
    have h1 : remove q k = .error .keyNotFound := by
      unfold remove
      rw [hg]
    have h2 : nremove n k = .error .keyNotFound := by
      unfold nremove
      rw [hsc]
    rw [h1, h2]
    exact h
  | true =>
    have hcn : ncontains n k = true := by rw [← h.contains_eq k]; exact hc
    obtain ⟨i, hg⟩ := Option.isSome_iff_exists.mp (show
      (dget q.pq_index k).isSome = true from hc)
    obtain ⟨j, hsc⟩ := Option.isSome_iff_exists.mp (show
      (scanIdx n.entries k).isSome = true from hcn)
    obtain ⟨hi, hkey⟩ := h.1.dget_some hg
    obtain ⟨hj, hjk⟩ := scanIdx_some_spec n.entries k j hsc
    have h1 : remove q k = .ok (removeCore q k i) := by
      unfold remove
      rw [hg]
    have h2 : nremove n k = .ok ⟨n.entries.eraseIdx j⟩ := by
      unfold nremove
      rw [hsc]
    rw [h1, h2]
    show Rel (removeCore q k i) ⟨n.entries.eraseIdx j⟩
    refine ⟨removeCore_InvP q k i h.1 hi hkey,
      removeCore_heapProp q k i h.2.1 hi, nodup_fst_eraseIdx h.2.2.1 j, ?_⟩
    refine (removeCore_pairs q k i hi).trans ?_
    have hLa : (pairs q).getD i default = (k, (ent q.pq i).priority) := by
      rw [show (pairs q).getD i default
          = ((ent q.pq i).key, (ent q.pq i).priority)
        from (pair_ent_eq_getD q.pq i).symm, hkey]
    have hMb : n.entries.getD j default
        = (k, (n.entries.getD j default).2) := by
      conv_lhs => rw [show n.entries.getD j default
        = ((n.entries.getD j default).1, (n.entries.getD j default).2)
        from rfl]
      rw [hjk]
    exact perm_eraseIdx_of_perm h.2.2.2 h.2.2.1
      (by unfold pairs; rw [List.length_map]; exact hi) hj hLa hMb

theorem Rel.pop_step {q : IHQ K P} {n : NaiveRef K P} (h : Rel q n) :
    Rel (stepMirrored (q, n) Op.popOp).1 (stepMirrored (q, n) Op.popOp).2 := by
  by_cases hpq : q.pq = []
  · have he : pop q = .error Err.emptyQueue := pop_def_empty q hpq
    simp only [stepMirrored, he]
    exact h
  · obtain ⟨q2, hpop, -⟩ := pop_spec q hpq
    have hl0 : 0 < q.pq.length := List.length_pos.mpr hpq
    have hrootmem : ((ent q.pq 0).key, (ent q.pq 0).priority) ∈ pairs q := by
      rw [pair_ent_eq_getD]
      refine getD_mem ?_
      show 0 < (q.pq.map fun e => (e.key, e.priority)).length
      rw [List.length_map]
      exact hl0
    have hrootn : ((ent q.pq 0).key, (ent q.pq 0).priority) ∈ n.entries :=
      h.2.2.2.mem_iff.mp hrootmem
    have hkm : (ent q.pq 0).key ∈ n.entries.map Prod.fst := by
      rw [List.mem_map]
      exact ⟨_, hrootn, rfl⟩
    cases hsc : scanIdx n.entries (ent q.pq 0).key with
    | none => exact absurd ((scanIdx_none_iff _ _).mp hsc) (by simpa using hkm)
    | some j =>
      obtain ⟨hj, hjk⟩ := scanIdx_some_spec n.entries (ent q.pq 0).key j hsc
      have h2 : nremove n (ent q.pq 0).key = .ok ⟨n.entries.eraseIdx j⟩ := by
        unfold nremove
        rw [hsc]
      simp only [stepMirrored, hpop, h2]
      show Rel q2 ⟨n.entries.eraseIdx j⟩
      refine ⟨pop_InvP q h.1 hpop, pop_heapProp q h.2.1 hpop,
        nodup_fst_eraseIdx h.2.2.1 j, ?_⟩
      have hjmb : n.entries.getD j default
          = ((ent q.pq 0).key, (n.entries.getD j default).2) := by
        conv_lhs => rw [show n.entries.getD j default
          = ((n.entries.getD j default).1, (n.entries.getD j default).2)
          from rfl]
        rw [hjk]
      have hbeq : (n.entries.getD j default).2 = (ent q.pq 0).priority := by
        refine pairs_fst_unique h.2.2.1 (k := (ent q.pq 0).key) ?_ hrootn
        rw [← hjmb]
        exact getD_mem hj
      have hcons : List.Perm n.entries
          (((ent q.pq 0).key, (ent q.pq 0).priority) :: n.entries.eraseIdx j) := by
        have hpc := perm_cons_eraseIdx n.entries j hj
        rw [hjmb, hbeq] at hpc
        exact hpc
      have hchain := (pop_pairs q hpop).symm.trans (h.2.2.2.trans hcons)
      exact hchain.cons_inv

theorem relStep (s : IHQ K P × NaiveRef K P) (op : Op K P)
    (h : Rel s.1 s.2) :
    Rel (stepMirrored s op).1 (stepMirrored s op).2 := by
  obtain ⟨q, n⟩ := s
  cases op with
  | ins k p => exact h.insert_step k p
  | upd k p => exact h.update_step k p
  | rem k => exact h.remove_step k
  | popOp => exact h.pop_step

theorem relRunGo : ∀ (ops : List (Op K P)) (s : IHQ K P × NaiveRef K P),
    Rel s.1 s.2 →
      Rel (ops.foldl stepMirrored s).1 (ops.foldl stepMirrored s).2 := by
  intro ops
  induction ops with
  | nil => intro s h; exact h
  | cons op rest ih =>
    intro s h
    rw [List.foldl_cons]
    exact ih _ (relStep s op h)

theorem relRun (ops : List (Op K P)) :
    Rel (runMirrored ops).1 (runMirrored ops).2 :=
  relRunGo ops _ Rel_empty

/-- C4, counterexample to the claim as stated: applying the very same
operation sequence independently to the queue and to the naive reference does
NOT keep membership (nor `get`) in agreement.  Under priority ties the two
structures may pop different keys: after
`insert(0,2); insert(1,1); insert(2,2); pop; pop` the queue still contains
key `0` while the reference still contains key `2` (the popped priorities and
the sizes agree throughout; only the retained key sets diverge).  The
repository's own stateful test avoids this by mirroring each `pop` on the
reference as a deletion of the key the queue popped. -/
theorem claim_C4_counterexample :
    contains (runSame ([.ins 0 2, .ins 1 1, .ins 2 2, .popOp, .popOp] :
      List (Op Nat Int))).1 0 = true ∧
    ncontains (runSame ([.ins 0 2, .ins 1 1, .ins 2 2, .popOp, .popOp] :
      List (Op Nat Int))).2 0 = false ∧
    contains (runSame ([.ins 0 2, .ins 1 1, .ins 2 2, .popOp, .popOp] :
      List (Op Nat Int))).1 2 = false ∧
    ncontains (runSame ([.ins 0 2, .ins 1 1, .ins 2 2, .popOp, .popOp] :
      List (Op Nat Int))).2 2 = true ∧
    size (runSame ([.ins 0 2, .ins 1 1, .ins 2 2, .popOp, .popOp] :
      List (Op Nat Int))).1
      = (runSame ([.ins 0 2, .ins 1 1, .ins 2 2, .popOp, .popOp] :
      List (Op Nat Int))).2.entries.length := by
  decide

/-- C4 (amended): for every sequence of `insert`/`update`/`remove`/`pop`
operations applied to the `IndexedHeapQueue` and to the naive O(n)-scan
reference, in which each `pop` is mirrored on the reference by removing the
key the queue popped (exactly how the repository's stateful hypothesis test
drives the pair), at every step the two agree on membership, on `size`, on
`get(k)` for every key, and on the priority (though not necessarily the key,
under ties) returned by `peek` and by `pop`. -/
theorem claim_C4_refinement (ops : List (Op K P)) :
    (∀ k, contains (runMirrored ops).1 k = ncontains (runMirrored ops).2 k) ∧
    size (runMirrored ops).1 = (runMirrored ops).2.entries.length ∧
    (∀ k, get (runMirrored ops).1 k = nget (runMirrored ops).2 k) ∧
    ((peek (runMirrored ops).1 = .error .emptyQueue ∧
        npeek (runMirrored ops).2 = .error .emptyQueue) ∨
      ∃ k1 k2 p, peek (runMirrored ops).1 = .ok (k1, p) ∧
        npeek (runMirrored ops).2 = .ok (k2, p)) ∧
    ((pop (runMirrored ops).1 = .error .emptyQueue ∧
        npop (runMirrored ops).2 = .error .emptyQueue) ∨
      ∃ k1 k2 p q2 n2, pop (runMirrored ops).1 = .ok ((k1, p), q2) ∧
        npop (runMirrored ops).2 = .ok ((k2, p), n2)) := by
  have h := relRun ops
  exact ⟨fun k => h.contains_eq k, h.size_eq, fun k => h.get_eq k,
    h.peek_agree, h.pop_agree⟩

/-- C4, witness: the amended agreement at a concrete mirrored run. -/
theorem claim_C4_witness :
    (∀ k, contains (runMirrored ([.ins 0 2, .ins 1 1, .ins 2 2, .popOp] :
        List (Op Nat Int))).1 k
      = ncontains (runMirrored ([.ins 0 2, .ins 1 1, .ins 2 2, .popOp] :
        List (Op Nat Int))).2 k) ∧
    size (runMirrored ([.ins 0 2, .ins 1 1, .ins 2 2, .popOp] :
        List (Op Nat Int))).1
      = (runMirrored ([.ins 0 2, .ins 1 1, .ins 2 2, .popOp] :
        List (Op Nat Int))).2.entries.length ∧
    (∀ k, get (runMirrored ([.ins 0 2, .ins 1 1, .ins 2 2, .popOp] :
        List (Op Nat Int))).1 k
      = nget (runMirrored ([.ins 0 2, .ins 1 1, .ins 2 2, .popOp] :
        List (Op Nat Int))).2 k) ∧
    ((peek (runMirrored ([.ins 0 2, .ins 1 1, .ins 2 2, .popOp] :
        List (Op Nat Int))).1 = .error .emptyQueue ∧
      npeek (runMirrored ([.ins 0 2, .ins 1 1, .ins 2 2, .popOp] :
        List (Op Nat Int))).2 = .error .emptyQueue) ∨
      ∃ k1 k2 p, peek (runMirrored ([.ins 0 2, .ins 1 1, .ins 2 2, .popOp] :
          List (Op Nat Int))).1 = .ok (k1, p) ∧
        npeek (runMirrored ([.ins 0 2, .ins 1 1, .ins 2 2, .popOp] :
          List (Op Nat Int))).2 = .ok (k2, p)) ∧
    ((pop (runMirrored ([.ins 0 2, .ins 1 1, .ins 2 2, .popOp] :
        List (Op Nat Int))).1 = .error .emptyQueue ∧
      npop (runMirrored ([.ins 0 2, .ins 1 1, .ins 2 2, .popOp] :
        List (Op Nat Int))).2 = .error .emptyQueue) ∨
      ∃ k1 k2 p q2 n2,
        pop (runMirrored ([.ins 0 2, .ins 1 1, .ins 2 2, .popOp] :
          List (Op Nat Int))).1 = .ok ((k1, p), q2) ∧
        npop (runMirrored ([.ins 0 2, .ins 1 1, .ins 2 2, .popOp] :
          List (Op Nat Int))).2 = .ok ((k2, p), n2)) :=
  claim_C4_refinement [.ins 0 2, .ins 1 1, .ins 2 2, .popOp]

end IndexedHeapQ
